import Mathlib

/-!
Verification development for the two-stage column-standardization pipeline
(source files: source_code/agents/agents.py, source_code/state.py,
source_code/graph.py).

Strings are modelled as lists of characters.  The regex scan
re.findall of three-backtick fenced blocks, Python str.strip, str.split,
str.lower, the two re.sub alias strips, and the dict semantics of CPython
(insertion order, later assignment overwrites in place) are embedded
directly.  The two calls to exec are modelled by a small evaluator for the
statement form that the stage requests from the model: a sequence of
assignments of string, integer, list and mapping literals to plain names.
Any program text outside that subset evaluates to none, which the stage
treats exactly like a raised exception caught by its try blocks.  The
evaluator reads double-quoted strings without escape sequences; only the
shapes the output contract uses are given roundtrip theorems.
-/

/-! Character classes and Python string helpers. -/

def isPySpace (c : Char) : Bool :=
  c == ' ' || c == '\t' || c == '\n' || c == '\r' || c == Char.ofNat 11 || c == Char.ofNat 12

def skipWs : List Char → List Char
| [] => []
| c :: cs => if isPySpace c then skipWs cs else c :: cs

def dropWsEnd (l : List Char) : List Char := (skipWs l.reverse).reverse

/-- Python str.strip: drop whitespace from both ends. -/
def pyStrip (l : List Char) : List Char := dropWsEnd (skipWs l)

/-- Does the pattern (first argument) occur right at the start of the text? -/
def matchesAt : List Char → List Char → Bool
| [], _ => true
| _ :: _, [] => false
| p :: ps, c :: cs => p == c && matchesAt ps cs

/-- Split the text at the leftmost occurrence of the marker, returning the
text before it and the text after it. -/
def splitAtSeq (m : List Char) : List Char → Option (List Char × List Char)
| [] => none
| c :: cs =>
  if matchesAt m (c :: cs) then some ([], (c :: cs).drop m.length)
  else
    match splitAtSeq m cs with
    | some (pre, rest) => some (c :: pre, rest)
    | none => none

def fence : List Char := ("```").toList

def pythonTag : List Char := ("python").toList

def renameMarker : List Char := ("df = df.rename").toList

/-- Drop a leading literal python language tag, as the regex group
(?:python)? does greedily. -/
def stripPyTag (s : List Char) : List Char :=
  if matchesAt pythonTag s then s.drop 6 else s

/-- One step of the re.findall scan per unit of fuel: find an opening
fence, greedily skip an optional python tag, lazily find the closing
fence, emit the captured group, continue after the match. -/
def findBlocksF : Nat → List Char → List (List Char)
| 0, _ => []
| f + 1, s =>
  match splitAtSeq fence s with
  | none => []
  | some (_, afterOpen) =>
    match splitAtSeq fence (stripPyTag afterOpen) with
    | none => []
    | some (content, rest) => content :: findBlocksF f rest

/-- Embedding of re.findall of the pattern with fence delimiters, optional
python tag and a lazy dotall group.  Each scan step consumes at least the
six characters of two fences, so fuel equal to the length of the text is
always sufficient; the fuel formulation only serves termination. -/
def findBlocks (s : List Char) : List (List Char) := findBlocksF (s.length + 1) s

/-! Python values and the literal-assignment evaluator standing in for
exec on the restricted statement form of the output contract. -/

inductive PyVal : Type
| str : List Char → PyVal
| int : Nat → PyVal
| list : List PyVal → PyVal
| dict : List (PyVal × PyVal) → PyVal

mutual

def pyBeq : PyVal → PyVal → Bool
| .str a, .str b => a == b
| .int a, .int b => a == b
| .list a, .list b => pyBeqList a b
| .dict a, .dict b => pyBeqPairs a b
| _, _ => false

def pyBeqList : List PyVal → List PyVal → Bool
| [], [] => true
| a :: as, b :: bs => pyBeq a b && pyBeqList as bs
| _, _ => false

def pyBeqPairs : List (PyVal × PyVal) → List (PyVal × PyVal) → Bool
| [], [] => true
| (k1, v1) :: as, (k2, v2) :: bs => pyBeq k1 k2 && pyBeq v1 v2 && pyBeqPairs as bs
| _, _ => false

end

instance : BEq PyVal := ⟨pyBeq⟩

def PyVal.isStr : PyVal → Bool
| .str _ => true
| _ => false

def PyVal.isDict : PyVal → Bool
| .dict _ => true
| _ => false

/-- CPython dict insertion: an existing key keeps its position and gets the
new value, a fresh key is appended. -/
def pyDictInsert (d : List (PyVal × PyVal)) (k v : PyVal) : List (PyVal × PyVal) :=
  if d.any (fun p => p.1 == k) then d.map (fun p => if p.1 == k then (p.1, v) else p)
  else d ++ [(k, v)]

def nsInsert (ns : List (List Char × PyVal)) (k : List Char) (v : PyVal) :
    List (List Char × PyVal) :=
  if ns.any (fun p => p.1 == k) then ns.map (fun p => if p.1 == k then (p.1, v) else p)
  else ns ++ [(k, v)]

def nsFind : List (List Char × PyVal) → List Char → Option PyVal
| [], _ => none
| (k, v) :: rest, key => if k = key then some v else nsFind rest key

/-- Python dict.get with a default value. -/
def nsGet (ns : List (List Char × PyVal)) (k : List Char) (d : PyVal) : PyVal :=
  match nsFind ns k with
  | some v => v
  | none => d

def identChar (c : Char) : Bool := c.isAlpha || c.isDigit || c == '_'

def spanIdent : List Char → (List Char × List Char)
| [] => ([], [])
| c :: cs =>
  if identChar c then
    match spanIdent cs with
    | (a, r) => (c :: a, r)
  else ([], c :: cs)

def parseIdent : List Char → Option (List Char × List Char)
| [] => none
| c :: cs =>
  if c.isDigit || !identChar c then none
  else
    match spanIdent (c :: cs) with
    | (a, r) => some (a, r)

/-- Scan the body of a double-quoted string literal up to the closing
quote.  Escape sequences and raw line breaks are outside the modelled
subset and evaluate to none. -/
def scanDq : List Char → Option (List Char × List Char)
| [] => none
| c :: cs =>
  if c == '"' then some ([], cs)
  else if c == '\\' || c == '\n' || c == '\r' then none
  else
    match scanDq cs with
    | some (a, r) => some (c :: a, r)
    | none => none

def spanDigits : List Char → (List Char × List Char)
| [] => ([], [])
| c :: cs =>
  if c.isDigit then
    match spanDigits cs with
    | (a, r) => (c :: a, r)
  else ([], c :: cs)

def digitsVal (ds : List Char) : Nat := ds.foldl (fun n c => 10 * n + (c.toNat - 48)) 0

mutual

def parseExpr : Nat → List Char → Option (PyVal × List Char)
| 0, _ => none
| f + 1, s =>
  match skipWs s with
  | [] => none
  | c :: cs =>
    if c == '"' then
      match scanDq cs with
      | some (a, r) => some (PyVal.str a, r)
      | none => none
    else if c == '[' then
      match parseItems f cs with
      | some (vs, r) => some (PyVal.list vs, r)
      | none => none
    else if c == Char.ofNat 123 then
      match parsePairs f cs with
      | some (ps, r) => some (PyVal.dict (ps.foldl (fun d p => pyDictInsert d p.1 p.2) []), r)
      | none => none
    else if c.isDigit then
      match spanDigits (c :: cs) with
      | (ds, r) => some (PyVal.int (digitsVal ds), r)
    else none

def parseItems : Nat → List Char → Option (List PyVal × List Char)
| 0, _ => none
| f + 1, s =>
  match skipWs s with
  | [] => none
  | c :: cs =>
    if c == ']' then some ([], cs)
    else
      match parseExpr f (c :: cs) with
      | none => none
      | some (v, r) =>
        match skipWs r with
        | ',' :: r2 =>
          match parseItems f r2 with
          | some (vs, r3) => some (v :: vs, r3)
          | none => none
        | ']' :: r2 => some ([v], r2)
        | _ => none

def parsePairs : Nat → List Char → Option (List (PyVal × PyVal) × List Char)
| 0, _ => none
| f + 1, s =>
  match skipWs s with
  | [] => none
  | c :: cs =>
    if c == Char.ofNat 125 then some ([], cs)
    else
      match parseExpr f (c :: cs) with
      | none => none
      | some (k, r) =>
        match skipWs r with
        | ':' :: r2 =>
          match parseExpr f r2 with
          | none => none
          | some (v, r3) =>
            match skipWs r3 with
            | ',' :: r4 =>
              match parsePairs f r4 with
              | some (ps, r5) => some ((k, v) :: ps, r5)
              | none => none
            | c2 :: r4 => if c2 == Char.ofNat 125 then some ([(k, v)], r4) else none
            | [] => none
        | _ => none

end

/-- A sequence of assignments of literals to plain names, updating the
local namespace in order.  The fuel bounds the statement count by the text
length and never runs out. -/
def parseStmts : Nat → List Char → List (List Char × PyVal) → Option (List (List Char × PyVal))
| 0, _, _ => none
| f + 1, s, ns =>
  match skipWs s with
  | [] => some ns
  | c :: cs =>
    match parseIdent (c :: cs) with
    | none => none
    | some (nm, r) =>
      match skipWs r with
      | '=' :: r2 =>
        match parseExpr (r2.length + 1) r2 with
        | none => none
        | some (v, r3) => parseStmts f r3 (nsInsert ns nm v)
      | _ => none

/-- Model of exec(code, empty globals, local namespace) on the restricted
assignment subset; none models a raised exception. -/
def pyExec (code : List Char) : Option (List (List Char × PyVal)) :=
  parseStmts (code.length + 1) code []

/-! The field standardization stage (field_standardization_agent). -/

def renameMapName : List Char := ("rename_map").toList

def ambiguousFieldsName : List Char := ("ambiguous_fields").toList

/-- The list comprehension over re.findall results: strip each block, keep
the non-empty ones. -/
def codeBlocksOf (resp : List Char) : List (List Char) :=
  ((findBlocks resp).map pyStrip).filter (fun b => !b.isEmpty)

def renameCodeOf (resp : List Char) : List Char := (codeBlocksOf resp).headD []

def ambiguousCodeOf (resp : List Char) : List Char := (codeBlocksOf resp).getD 1 []

/-- Guarded extraction of the ambiguous_fields variable: an evaluation
failure degrades to the empty list. -/
def ambiguousFieldsOf (resp : List Char) : PyVal :=
  let ac := ambiguousCodeOf resp
  if ac.isEmpty then PyVal.list []
  else
    match pyExec ac with
    | some ns => nsGet ns ambiguousFieldsName (PyVal.list [])
    | none => PyVal.list []

/-- The substring of a rename-code text before the first dataframe-rename
invocation: code.split of the marker, element zero. -/
def mapCodeFrom (code : List Char) : List Char :=
  match splitAtSeq renameMarker code with
  | some (pre, _) => pre
  | none => code

def mapCodeOf (resp : List Char) : List Char := mapCodeFrom (renameCodeOf resp)

/-- Guarded extraction of the rename_map variable from the isolated map
assignment: an evaluation failure degrades to the empty mapping. -/
def columnMapOf (resp : List Char) : PyVal :=
  let rc := renameCodeOf resp
  if rc.isEmpty then PyVal.dict []
  else
    match pyExec (mapCodeOf resp) with
    | some ns => nsGet ns renameMapName (PyVal.dict [])
    | none => PyVal.dict []

/-- Python truthiness of the values the stage can hold. -/
def pyTruthy : PyVal → Bool
| .str s => !s.isEmpty
| .int n => n != 0
| .list l => !l.isEmpty
| .dict d => !d.isEmpty

/-- Iteration over a Python value: lists yield elements, dicts yield keys,
strings yield one-character strings, integers are not iterable. -/
def pyIterElems : PyVal → Option (List PyVal)
| .list l => some l
| .dict d => some (d.map (fun p => p.1))
| .str s => some (s.map (fun c => PyVal.str [c]))
| .int _ => none

/-- The ambiguous-field report loop: it runs only on truthy values, needs
an iterable, and calls the .get method of every element, which only
mappings have.  none models the uncaught exception it raises otherwise. -/
def auditAmb (af : PyVal) : Option Unit :=
  if pyTruthy af then
    match pyIterElems af with
    | none => none
    | some items => if items.all (fun fld => fld.isDict) then some () else none
  else some ()

def ambiguousTag : List Char := ("ambiguous_").toList

def unknownTag : List Char := ("unknown_").toList

def valStarts (tag : List Char) : PyVal → Bool
| .str s => matchesAt tag s
| _ => false

/-- The unknown-field and confident-count comprehensions over
column_map.items.  They require a mapping whose values are all strings:
v.startswith on any other value raises, modelled by none. -/
def auditMap (cm : PyVal) : Option (List PyVal × Nat) :=
  match cm with
  | .dict entries =>
    if entries.all (fun p => p.2.isStr) then
      some ((entries.filter (fun p => valStarts unknownTag p.2)).map (fun p => p.1),
            (entries.filter
              (fun p => !(valStarts ambiguousTag p.2 || valStarts unknownTag p.2))).length)
    else none
  | _ => none

/-- The whole reporting suffix of the stage, in program order: the
ambiguous-field loop, then the unknown and confident comprehensions. -/
def reporting (af cm : PyVal) : Option (List PyVal × Nat) :=
  match auditAmb af with
  | none => none
  | some _ => auditMap cm

structure StageResult where
  cleaning_code : List Char
  ambiguous_fields : PyVal
  column_map : PyVal

/-- The parsing part of field_standardization_agent, applied to the raw
model response text.  The LLM call that produces the text is the opaque
external collaborator; some models a normal return, none an uncaught
exception raised past the stage. -/
def field_standardization_agent (resp : List Char) : Option StageResult :=
  if (codeBlocksOf resp).isEmpty then some ⟨[], PyVal.list [], PyVal.dict []⟩
  else
    match reporting (ambiguousFieldsOf resp) (columnMapOf resp) with
    | none => none
    | some _ => some ⟨renameCodeOf resp, ambiguousFieldsOf resp, columnMapOf resp⟩

/-! The column-name pre-processor (preprocess_column_names). -/

/-- The first re.sub: anchored single-letter-dot alias strip. -/
def stripLetterDot : List Char → List Char
| a :: b :: rest => if a.isAlpha && b == '.' then rest else a :: b :: rest
| s => s

def wordChar (c : Char) : Bool := c.isAlpha || c == '_'

/-- The second re.sub: anchored word-dot alias strip.  The character class
excludes the dot, so the anchored match exists exactly when the maximal
run of word characters is non-empty and followed by a dot. -/
def stripWordDot (s : List Char) : List Char :=
  let run := s.takeWhile wordChar
  if run.isEmpty then s
  else
    match s.drop run.length with
    | '.' :: rest => rest
    | _ => s

def lowerStr (s : List Char) : List Char := s.map Char.toLower

/-- Does the anchored single-letter-dot pattern match at the start? -/
def hasLetterDot : List Char → Bool
| a :: b :: _ => a.isAlpha && b == '.'
| _ => false

/-- Does the anchored word-dot pattern match at the start? -/
def hasWordDot (s : List Char) : Bool :=
  let run := s.takeWhile wordChar
  !run.isEmpty &&
    (match s.drop run.length with
     | '.' :: _ => true
     | _ => false)

/-- The per-column body of preprocess_column_names: strip, both anchored
re.sub alias strips in sequence, strip, lower. -/
def cleanName (col : List Char) : List Char :=
  lowerStr (pyStrip (stripWordDot (stripLetterDot (pyStrip col))))

/-- CPython dict insertion for string keys (see pyDictInsert). -/
def dictInsertLC (d : List (List Char × List Char)) (k v : List Char) :
    List (List Char × List Char) :=
  if d.any (fun p => p.1 == k) then d.map (fun p => if p.1 == k then (p.1, v) else p)
  else d ++ [(k, v)]

def preprocess_column_names (cols : List (List Char)) : List (List Char × List Char) :=
  cols.foldl (fun acc col => dictInsertLC acc col (cleanName col)) []

/-! The pipeline state record (state.py) and the stage reads of it. -/

/-- The keys declared by the AgentState TypedDict in state.py. -/
def agentStateFields : List String :=
  ["file_path", "target_column", "metadata_summary", "cleaning_code",
   "iteration_count", "error_log"]

def stateGet (st : List (String × PyVal)) (k : String) (d : PyVal) : PyVal :=
  match st.find? (fun p => p.1 == k) with
  | some p => p.2
  | none => d

/-- state.get of df_columns with default empty list, as the stage reads it. -/
def readDfColumns (st : List (String × PyVal)) : PyVal :=
  stateGet st "df_columns" (PyVal.list [])

/-- state.get of sql_query with its prompt default. -/
def readSqlQuery (st : List (String × PyVal)) : PyVal :=
  stateGet st "sql_query" (PyVal.str ("Not provided").toList)

/-- state.get of special_rules with its prompt default. -/
def readSpecialRules (st : List (String × PyVal)) : PyVal :=
  stateGet st "special_rules" (PyVal.str ("None").toList)

/-! Spec-side definition of fenced-block extraction, for the refinement
claim about response parsing.  Modelled from the spec words: scan for
fenced-code-block delimiters; the regions between the first and second,
third and fourth, ... delimiters are the fenced contents; an optional
python language tag at the start of a region is not part of the content. -/

def splitOnFenceF : Nat → List Char → List (List Char)
| 0, s => [s]
| f + 1, s =>
  match splitAtSeq fence s with
  | none => [s]
  | some (pre, rest) => pre :: splitOnFenceF f rest

/-- Split the text at every fence delimiter, leftmost first.  As with
findBlocks, fuel equal to the text length is always sufficient. -/
def splitOnFence (s : List Char) : List (List Char) := splitOnFenceF (s.length + 1) s

/-- The regions between delimiter one and two, three and four, and so on;
a trailing region with no closing delimiter is not a block. -/
def fencedRaw : List (List Char) → List (List Char)
| _ :: b :: c :: rest => b :: fencedRaw (c :: rest)
| _ => []

/-- Spec-side fenced-block extraction: regions between consecutive
delimiter pairs, with an optional python tag stripped from each. -/
def specFencedBlocks (s : List Char) : List (List Char) :=
  (fencedRaw (splitOnFence s)).map stripPyTag

/-! Renderers producing the canonical well-formed model response of the
output contract, used to state the roundtrip claims. -/

def renderStrLit (s : List Char) : List Char := '"' :: (s ++ ['"'])

def renderPairsStr : List (List Char × List Char) → List Char
| [] => []
| [p] => renderStrLit p.1 ++ ':' :: ' ' :: renderStrLit p.2
| p :: q :: rest =>
  renderStrLit p.1 ++ ':' :: ' ' :: renderStrLit p.2 ++ ',' :: ' ' ::
    renderPairsStr (q :: rest)

def renderDictStr (m : List (List Char × List Char)) : List Char :=
  Char.ofNat 123 :: (renderPairsStr m ++ [Char.ofNat 125])

def renderItemsStr : List (List Char) → List Char
| [] => []
| [s] => renderStrLit s
| s :: t :: rest => renderStrLit s ++ ',' :: ' ' :: renderItemsStr (t :: rest)

def renderListOfStr (l : List (List Char)) : List Char :=
  '[' :: (renderItemsStr l ++ [']'])

structure AmbRec where
  original_column : List Char
  candidates : List (List Char)
  reason : List Char
  sample_values : List Char
deriving DecidableEq

def ocKey : List Char := ("original_column").toList

def candKey : List Char := ("candidates").toList

def reasonKey : List Char := ("reason").toList

def svKey : List Char := ("sample_values").toList

/-- The Python value a well-formed ambiguous-field record denotes. -/
def recVal (r : AmbRec) : PyVal :=
  PyVal.dict [(PyVal.str ocKey, PyVal.str r.original_column),
              (PyVal.str candKey, PyVal.list (r.candidates.map PyVal.str)),
              (PyVal.str reasonKey, PyVal.str r.reason),
              (PyVal.str svKey, PyVal.str r.sample_values)]

def renderRec (r : AmbRec) : List Char :=
  Char.ofNat 123 ::
    (renderStrLit ocKey ++ ':' :: ' ' :: renderStrLit r.original_column ++
     ',' :: ' ' :: renderStrLit candKey ++ ':' :: ' ' :: renderListOfStr r.candidates ++
     ',' :: ' ' :: renderStrLit reasonKey ++ ':' :: ' ' :: renderStrLit r.reason ++
     ',' :: ' ' :: renderStrLit svKey ++ ':' :: ' ' :: renderStrLit r.sample_values ++
     [Char.ofNat 125])

def renderRecItems : List AmbRec → List Char
| [] => []
| [r] => renderRec r
| r :: q :: rest => renderRec r ++ ',' :: ' ' :: renderRecItems (q :: rest)

def renderRecList (rs : List AmbRec) : List Char :=
  '[' :: (renderRecItems rs ++ [']'])

/-- The record fields as key-text-value triples, for the roundtrip proofs. -/
def recPairs (r : AmbRec) : List (List Char × List Char × PyVal) :=
  [(ocKey, renderStrLit r.original_column, PyVal.str r.original_column),
   (candKey, renderListOfStr r.candidates, PyVal.list (r.candidates.map PyVal.str)),
   (reasonKey, renderStrLit r.reason, PyVal.str r.reason),
   (svKey, renderStrLit r.sample_values, PyVal.str r.sample_values)]

/-- A fuel bound dominating the parse needs of every record in the list. -/
def recsBound (rs : List AmbRec) : Nat :=
  rs.foldr (fun r n => max (r.candidates.length + 12) n) 1

def renameAssign : List Char := ("rename_map = ").toList

def renameCall : List Char := ("\ndf = df.rename(columns=rename_map)").toList

/-- Canonical well-formed first block of the output contract. -/
def wfBlock1 (m : List (List Char × List Char)) : List Char :=
  renameAssign ++ renderDictStr m ++ renameCall

def ambAssign : List Char := ("ambiguous_fields = ").toList

/-- Canonical well-formed second block of the output contract. -/
def wfBlock2 (rs : List AmbRec) : List Char :=
  ambAssign ++ renderRecList rs

/-- Canonical well-formed two-block model response. -/
def wfResponse (m : List (List Char × List Char)) (rs : List AmbRec) : List Char :=
  fence ++ pythonTag ++ '\n' :: wfBlock1 m ++ '\n' :: fence ++
    '\n' :: '\n' :: fence ++ pythonTag ++ '\n' :: wfBlock2 rs ++ '\n' :: fence

/-- Characters that may appear in the column names and record texts of a
well-formed response: no quote, no backslash, no line break, no equals
sign, no backtick. -/
def safeChar (c : Char) : Bool :=
  !(c == '"' || c == '\\' || c == '\n' || c == '\r' || c == '=' || c == Char.ofNat 96)

def safeStr (s : List Char) : Bool := s.all safeChar

def safeRec (r : AmbRec) : Bool :=
  safeStr r.original_column && r.candidates.all safeStr && safeStr r.reason &&
    safeStr r.sample_values

def dictKeys : PyVal → List PyVal
| .dict d => d.map (fun p => p.1)
| _ => []

def listElems : PyVal → List PyVal
| .list l => l
| _ => []

/-- A record value carries all four required keys. -/
def hasReqKeys (v : PyVal) : Bool :=
  [ocKey, candKey, reasonKey, svKey].all
    (fun k => (dictKeys v).any (fun kv => kv == PyVal.str k))

/-- A model response whose rename block maps a column to an integer: the
two guarded evaluations succeed, but the audit comprehensions call the
startswith method of an integer. -/
def badIntResp : List Char :=
  ("```python\nrename_map = \x7b\"a\": 1\x7d\ndf = df.rename(columns=rename_map)\n```").toList

/-- Characters that are neither the equals sign nor a backtick; the
renderers only emit such characters, which keeps the rename marker and the
fences findable. -/
def noEqBq (c : Char) : Bool := !(c == '=') && !(c == Char.ofNat 96)

/-- Render a list of key-text-value triples as the inside of a mapping
literal: quoted key, colon, space, the value text, comma-space separated. -/
def renderMixed : List (List Char × List Char × PyVal) → List Char
| [] => []
| [pr] => renderStrLit pr.1 ++ ':' :: ' ' :: pr.2.1
| pr :: q :: u => renderStrLit pr.1 ++ ':' :: ' ' :: pr.2.1 ++ ',' :: ' ' ::
    renderMixed (q :: u)

/-- Render a list of text-value pairs as the inside of a list literal. -/
def renderMixedItems : List (List Char × PyVal) → List Char
| [] => []
| [pr] => pr.1
| pr :: q :: u => pr.1 ++ ',' :: ' ' :: renderMixedItems (q :: u)

/-! Toolkit about matchesAt and splitAtSeq. -/

theorem matchesAt_append_self (m r : List Char) : matchesAt m (m ++ r) = true := by
  induction m with
  | nil => rfl
  | cons c cs ih => simp [matchesAt, ih]

theorem matchesAt_take {m s : List Char} (h : matchesAt m s = true) :
    s = m ++ s.drop m.length := by
  induction m generalizing s with
  | nil => simp
  | cons c cs ih =>
    cases s with
    | nil => simp [matchesAt] at h
    | cons d ds =>
      simp only [matchesAt, Bool.and_eq_true, beq_iff_eq] at h
      obtain ⟨h1, h2⟩ := h
      subst h1
      simpa using ih h2

theorem matchesAt_of_start {p a : List Char} (b : List Char)
    (h : matchesAt p a = true) : matchesAt p (a ++ b) = true := by
  induction p generalizing a with
  | nil => rfl
  | cons c cs ih =>
    cases a with
    | nil => simp [matchesAt] at h
    | cons d ds =>
      simp only [matchesAt, Bool.and_eq_true, beq_iff_eq] at h
      simp [matchesAt, h.1, ih h.2]

theorem matchesAt_short {p a : List Char} (h : a.length < p.length) :
    matchesAt p a = false := by
  induction p generalizing a with
  | nil => simp at h
  | cons c cs ih =>
    cases a with
    | nil => rfl
    | cons d ds =>
      simp only [List.length_cons, Nat.add_lt_add_iff_right] at h
      simp [matchesAt, ih h]

theorem matchesAt_getElem {p l : List Char} (h : matchesAt p l = true)
    {j : Nat} (hj : j < p.length) : l[j]? = p[j]? := by
  conv_lhs => rw [matchesAt_take h]
  rw [List.getElem?_append]
  simp [hj]

theorem splitAtSeq_self (m rest : List Char) (hm : m ≠ []) :
    splitAtSeq m (m ++ rest) = some ([], rest) := by
  cases m with
  | nil => exact absurd rfl hm
  | cons c cs =>
    have hdrop : ((c :: cs) ++ rest).drop (c :: cs).length = rest := List.drop_left _ _
    simp only [List.cons_append, splitAtSeq]
    rw [if_pos (by simpa using matchesAt_append_self (c :: cs) rest)]
    simp [hdrop]

theorem splitAtSeq_step {m : List Char} {c : Char} {cs : List Char}
    (h : matchesAt m (c :: cs) = false) :
    splitAtSeq m (c :: cs) = (splitAtSeq m cs).map (fun pr => (c :: pr.1, pr.2)) := by
  rw [splitAtSeq, if_neg (by simp [h])]
  cases hs : splitAtSeq m cs with
  | none => simp
  | some pr => cases pr ; simp

theorem splitAtSeq_append {m x y : List Char}
    (h : ∀ i, i < x.length → matchesAt m ((x ++ y).drop i) = false) :
    splitAtSeq m (x ++ y) = (splitAtSeq m y).map (fun pr => (x ++ pr.1, pr.2)) := by
  induction x with
  | nil =>
    cases hs : splitAtSeq m y with
    | none => simp [hs]
    | some pr => cases pr ; simp [hs]
  | cons c cs ih =>
    have h0 : matchesAt m (c :: (cs ++ y)) = false := by
      have := h 0 (by simp)
      simpa only [List.drop_zero, List.cons_append] using this
    have hstep := @splitAtSeq_step m c (cs ++ y) h0
    have hih := ih (fun i hi => by
      have := h (i + 1) (by simpa using Nat.succ_lt_succ hi)
      simpa using this)
    rw [List.cons_append, hstep, hih]
    cases splitAtSeq m y with
    | none => simp
    | some pr => cases pr ; simp

theorem no_match_of_head_notin {mc : Char} {m' x y : List Char}
    (hx : ∀ c ∈ x, ¬ c = mc) :
    ∀ i, i < x.length → matchesAt (mc :: m') ((x ++ y).drop i) = false := by
  intro i hi
  by_contra hcon
  have h : matchesAt (mc :: m') ((x ++ y).drop i) = true := by
    simpa using hcon
  have h0 : ((x ++ y).drop i)[0]? = some mc := by
    simpa using matchesAt_getElem h (j := 0) (by simp)
  rw [List.getElem?_drop] at h0
  rw [List.getElem?_append, if_pos (by simpa using hi)] at h0
  exact hx _ (List.getElem?_mem (by simpa using h0)) rfl

theorem splitAtSeq_sandwich {m x rest : List Char} (hm : m ≠ [])
    (h : ∀ i, i < x.length → matchesAt m ((x ++ (m ++ rest)).drop i) = false) :
    splitAtSeq m (x ++ m ++ rest) = some (x, rest) := by
  rw [List.append_assoc, splitAtSeq_append h, splitAtSeq_self m rest hm]
  simp

theorem splitAtSeq_sound {m s pre rest : List Char}
    (h : splitAtSeq m s = some (pre, rest)) : s = pre ++ m ++ rest := by
  induction s generalizing pre rest with
  | nil => simp [splitAtSeq] at h
  | cons c cs ih =>
    by_cases hm : matchesAt m (c :: cs) = true
    · rw [splitAtSeq, if_pos hm] at h
      simp only [Option.some.injEq, Prod.mk.injEq] at h
      obtain ⟨h1, h2⟩ := h
      subst h1
      subst h2
      simpa using matchesAt_take hm
    · have hm' : matchesAt m (c :: cs) = false := by simpa using hm
      rw [splitAtSeq_step hm'] at h
      cases hsp : splitAtSeq m cs with
      | none => simp [hsp] at h
      | some pr =>
        obtain ⟨p1, p2⟩ := pr
        rw [hsp] at h
        simp at h
        obtain ⟨h1, h2⟩ := h
        have hcs := ih hsp
        subst h1
        subst h2
        rw [hcs]
        simp

theorem splitAtSeq_length {m s pre rest : List Char} (hm : m ≠ [])
    (h : splitAtSeq m s = some (pre, rest)) : rest.length < s.length := by
  have hs := splitAtSeq_sound h
  have hmlen : 0 < m.length := List.length_pos.mpr hm
  have : s.length = pre.length + m.length + rest.length := by
    rw [hs] ; simp [List.length_append] ; omega
  omega

/-! Facts about the fence and the python tag. -/

theorem fence_cons : fence = Char.ofNat 96 :: Char.ofNat 96 :: [Char.ofNat 96] := by decide

theorem fence_ne_nil : fence ≠ [] := by decide

theorem pythonTag_no_bq : ∀ c ∈ pythonTag, ¬ c = Char.ofNat 96 := by decide

theorem splitAtSeq_fence_shift {x y : List Char}
    (hx : ∀ c ∈ x, ¬ c = Char.ofNat 96) :
    splitAtSeq fence (x ++ y) = (splitAtSeq fence y).map (fun pr => (x ++ pr.1, pr.2)) := by
  have hno := @no_match_of_head_notin (Char.ofNat 96)
    (Char.ofNat 96 :: [Char.ofNat 96]) x y hx
  rw [← fence_cons] at hno
  exact splitAtSeq_append hno

theorem splitAtSeq_fence_python {a : List Char} (h : matchesAt pythonTag a = true) :
    splitAtSeq fence a =
      (splitAtSeq fence (a.drop 6)).map (fun pr => (pythonTag ++ pr.1, pr.2)) := by
  have ha : a = pythonTag ++ a.drop 6 := matchesAt_take h
  conv_lhs => rw [ha]
  exact splitAtSeq_fence_shift pythonTag_no_bq

theorem stripPyTag_of_python {content : List Char} :
    stripPyTag (pythonTag ++ content) = content := by
  rw [stripPyTag, if_pos (matchesAt_append_self _ _)]
  exact List.drop_left pythonTag content

theorem stripPyTag_of_not {s : List Char} (h : matchesAt pythonTag s = false) :
    stripPyTag s = s := by
  rw [stripPyTag, if_neg (by simp [h])]

/-! The refinement of the re.findall scan by the spec-side description of
fenced regions. -/

theorem splitOnFenceF_fuel : ∀ n f g s, s.length ≤ n → n < f → n < g →
    splitOnFenceF f s = splitOnFenceF g s := by
  intro n
  induction n with
  | zero =>
    intro f g s hs hf hg
    have hnil : s = [] := List.length_eq_zero.mp (Nat.le_zero.mp hs)
    subst hnil
    cases f with
    | zero => omega
    | succ f =>
      cases g with
      | zero => omega
      | succ g => simp [splitOnFenceF, splitAtSeq]
  | succ n ih =>
    intro f g s hs hf hg
    cases f with
    | zero => omega
    | succ f =>
      cases g with
      | zero => omega
      | succ g =>
        cases hsp : splitAtSeq fence s with
        | none => simp [splitOnFenceF, hsp]
        | some pr =>
          obtain ⟨pre, rest⟩ := pr
          have hlen := splitAtSeq_length fence_ne_nil hsp
          simp only [splitOnFenceF, hsp]
          rw [ih f g rest (by omega) (by omega) (by omega)]

theorem splitOnFence_none {s : List Char} (h : splitAtSeq fence s = none) :
    splitOnFence s = [s] := by
  rw [splitOnFence]
  simp [splitOnFenceF, h]

theorem splitOnFence_some {s pre rest : List Char}
    (h : splitAtSeq fence s = some (pre, rest)) :
    splitOnFence s = pre :: splitOnFence rest := by
  have hlen := splitAtSeq_length fence_ne_nil h
  rw [splitOnFence, splitOnFence]
  simp only [splitOnFenceF, h]
  congr 1
  exact splitOnFenceF_fuel rest.length s.length (rest.length + 1) rest le_rfl hlen
    (Nat.lt_succ_self _)

theorem splitOnFence_ne_nil (s : List Char) : splitOnFence s ≠ [] := by
  cases hsp : splitAtSeq fence s with
  | none => simp [splitOnFence_none hsp]
  | some pr =>
    obtain ⟨a, b⟩ := pr
    simp [splitOnFence_some hsp]

theorem findBlocksF_spec : ∀ n s f, s.length ≤ n → n < f →
    findBlocksF f s = specFencedBlocks s := by
  intro n
  induction n with
  | zero =>
    intro s f hs hf
    have hnil : s = [] := List.length_eq_zero.mp (Nat.le_zero.mp hs)
    subst hnil
    cases f with
    | zero => omega
    | succ f =>
      simp [findBlocksF, splitAtSeq, specFencedBlocks, splitOnFence, splitOnFenceF, fencedRaw]
  | succ n ih =>
    intro s f hs hf
    cases f with
    | zero => omega
    | succ f =>
      cases h1 : splitAtSeq fence s with
      | none =>
        simp only [findBlocksF, h1]
        rw [specFencedBlocks, splitOnFence_none h1]
        simp [fencedRaw]
      | some pr =>
        obtain ⟨pre, afterOpen⟩ := pr
        have hAlen := splitAtSeq_length fence_ne_nil h1
        by_cases hpy : matchesAt pythonTag afterOpen = true
        · have hshift := splitAtSeq_fence_python hpy
          have hstrip : stripPyTag afterOpen = afterOpen.drop 6 := by
            rw [stripPyTag, if_pos hpy]
          cases h2 : splitAtSeq fence (stripPyTag afterOpen) with
          | none =>
            have hA : splitAtSeq fence afterOpen = none := by
              rw [hshift]
              rw [hstrip] at h2
              rw [h2]
              rfl
            simp only [findBlocksF, h1, h2]
            rw [specFencedBlocks, splitOnFence_some h1, splitOnFence_none hA]
            simp [fencedRaw]
          | some pr2 =>
            obtain ⟨content, rest⟩ := pr2
            have hA : splitAtSeq fence afterOpen = some (pythonTag ++ content, rest) := by
              rw [hshift]
              rw [hstrip] at h2
              rw [h2]
              rfl
            have hrlen := splitAtSeq_length fence_ne_nil hA
            simp only [findBlocksF, h1, h2]
            rw [specFencedBlocks, splitOnFence_some h1, splitOnFence_some hA]
            cases hro : splitOnFence rest with
            | nil => exact absurd hro (splitOnFence_ne_nil rest)
            | cons r0 rtail =>
              simp only [fencedRaw, List.map_cons]
              have hrec : findBlocksF f rest = specFencedBlocks rest :=
                ih rest f (by omega) (by omega)
              rw [hrec, specFencedBlocks, hro]
              simp [stripPyTag_of_python]
        · have hpy' : matchesAt pythonTag afterOpen = false := by simpa using hpy
          have hstrip : stripPyTag afterOpen = afterOpen := stripPyTag_of_not hpy'
          cases h2 : splitAtSeq fence (stripPyTag afterOpen) with
          | none =>
            have hA : splitAtSeq fence afterOpen = none := by
              rw [← hstrip]
              exact h2
            simp only [findBlocksF, h1, h2]
            rw [specFencedBlocks, splitOnFence_some h1, splitOnFence_none hA]
            simp [fencedRaw]
          | some pr2 =>
            obtain ⟨content, rest⟩ := pr2
            have hA : splitAtSeq fence afterOpen = some (content, rest) := by
              rw [← hstrip]
              exact h2
            have hrlen := splitAtSeq_length fence_ne_nil hA
            have hsound := splitAtSeq_sound hA
            have hcontent : matchesAt pythonTag content = false := by
              by_contra hc
              have hc' : matchesAt pythonTag content = true := by simpa using hc
              have hA2 : matchesAt pythonTag afterOpen = true := by
                rw [List.append_assoc] at hsound
                rw [hsound]
                exact matchesAt_of_start _ hc'
              rw [hpy'] at hA2
              exact Bool.false_ne_true hA2
            cases hro : splitOnFence rest with
            | nil => exact absurd hro (splitOnFence_ne_nil rest)
            | cons r0 rtail =>
              simp only [findBlocksF, h1, h2]
              rw [specFencedBlocks, splitOnFence_some h1, splitOnFence_some hA, hro]
              simp only [fencedRaw, List.map_cons]
              have hrec : findBlocksF f rest = specFencedBlocks rest :=
                ih rest f (by omega) (by omega)
              rw [hrec, specFencedBlocks, hro]
              simp [stripPyTag_of_not hcontent]

theorem findBlocks_spec (s : List Char) : findBlocks s = specFencedBlocks s :=
  findBlocksF_spec s.length s (s.length + 1) le_rfl (Nat.lt_succ_self _)

/-! Helpers about skipWs, pyStrip and small list facts. -/

theorem list_all_map {α β : Type} (f : α → β) (l : List α) (p : β → Bool) :
    (l.map f).all p = l.all (fun a => p (f a)) := by
  induction l with
  | nil => rfl
  | cons a t ih => simp [ih]

theorem skipWs_cons_pos {c : Char} {l : List Char} (h : isPySpace c = true) :
    skipWs (c :: l) = skipWs l := by
  rw [skipWs, if_pos h]

theorem skipWs_cons_neg {c : Char} {l : List Char} (h : isPySpace c = false) :
    skipWs (c :: l) = c :: l := by
  rw [skipWs, if_neg (by simp [h])]

theorem skipWs_length_le (l : List Char) : (skipWs l).length ≤ l.length := by
  induction l with
  | nil => simp [skipWs]
  | cons c cs ih =>
    by_cases h : isPySpace c
    · rw [skipWs_cons_pos h]
      exact Nat.le_succ_of_le ih
    · rw [skipWs_cons_neg (by simpa using h)]

theorem skipWs_idem (l : List Char) : skipWs (skipWs l) = skipWs l := by
  induction l with
  | nil => rfl
  | cons c cs ih =>
    by_cases h : isPySpace c
    · rw [skipWs_cons_pos h]
      exact ih
    · have h' : isPySpace c = false := by simpa using h
      rw [skipWs_cons_neg h', skipWs_cons_neg h']

theorem skipWs_suffix (l : List Char) : ∃ a, l = a ++ skipWs l := by
  induction l with
  | nil => exact ⟨[], rfl⟩
  | cons c cs ih =>
    by_cases h : isPySpace c
    · obtain ⟨a, ha⟩ := ih
      rw [skipWs_cons_pos h]
      exact ⟨c :: a, by rw [List.cons_append, ← ha]⟩
    · rw [skipWs_cons_neg (by simpa using h)]
      exact ⟨[], rfl⟩

theorem dropWsEnd_idem (l : List Char) : dropWsEnd (dropWsEnd l) = dropWsEnd l := by
  rw [dropWsEnd, dropWsEnd, List.reverse_reverse, skipWs_idem]

theorem skipWs_dropWsEnd {l : List Char} (h : skipWs l = l) :
    skipWs (dropWsEnd l) = dropWsEnd l := by
  cases hd : dropWsEnd l with
  | nil => rfl
  | cons c t =>
    obtain ⟨a, ha⟩ := skipWs_suffix l.reverse
    have hl : l = dropWsEnd l ++ a.reverse := by
      conv_lhs => rw [← List.reverse_reverse l]
      conv_lhs => rw [ha]
      rw [List.reverse_append, dropWsEnd]
    rw [hd] at hl
    have hc : isPySpace c = false := by
      by_contra hcc
      have hcc' : isPySpace c = true := by simpa using hcc
      have h1 : skipWs l = skipWs (t ++ a.reverse) := by
        conv_lhs => rw [hl, List.cons_append, skipWs_cons_pos hcc']
      have h2 : (skipWs l).length ≤ (t ++ a.reverse).length := by
        rw [h1]
        exact skipWs_length_le _
      rw [h, hl] at h2
      simp at h2
    rw [skipWs_cons_neg hc]

theorem pyStrip_idem (l : List Char) : pyStrip (pyStrip l) = pyStrip l := by
  rw [pyStrip, pyStrip, skipWs_dropWsEnd (skipWs_idem l), dropWsEnd_idem]

/-! Stage-level unfolding facts. -/

theorem stage_of_blocks_empty {resp : List Char} (h : codeBlocksOf resp = []) :
    field_standardization_agent resp = some ⟨[], PyVal.list [], PyVal.dict []⟩ := by
  rw [field_standardization_agent, if_pos (by simp [h])]

theorem renameCodeOf_of_empty {resp : List Char} (h : codeBlocksOf resp = []) :
    renameCodeOf resp = [] := by
  rw [renameCodeOf, h]
  rfl

theorem ambiguousFieldsOf_of_empty {resp : List Char} (h : codeBlocksOf resp = []) :
    ambiguousFieldsOf resp = PyVal.list [] := by
  rw [ambiguousFieldsOf, ambiguousCodeOf, h]
  rfl

theorem columnMapOf_of_empty {resp : List Char} (h : codeBlocksOf resp = []) :
    columnMapOf resp = PyVal.dict [] := by
  rw [columnMapOf, renameCodeOf_of_empty h]
  rfl

theorem stage_of_reporting_some {resp : List Char} {u : List PyVal × Nat}
    (hb : codeBlocksOf resp ≠ [])
    (h : reporting (ambiguousFieldsOf resp) (columnMapOf resp) = some u) :
    field_standardization_agent resp =
      some ⟨renameCodeOf resp, ambiguousFieldsOf resp, columnMapOf resp⟩ := by
  rw [field_standardization_agent, if_neg (by simp [hb]), h]

theorem stage_of_reporting_none {resp : List Char}
    (hb : codeBlocksOf resp ≠ [])
    (h : reporting (ambiguousFieldsOf resp) (columnMapOf resp) = none) :
    field_standardization_agent resp = none := by
  rw [field_standardization_agent, if_neg (by simp [hb]), h]

theorem stage_result_shape {resp : List Char} {r : StageResult}
    (h : field_standardization_agent resp = some r) :
    r = ⟨renameCodeOf resp, ambiguousFieldsOf resp, columnMapOf resp⟩ := by
  rw [field_standardization_agent] at h
  by_cases hb : (codeBlocksOf resp).isEmpty
  · rw [if_pos hb] at h
    have hbe : codeBlocksOf resp = [] := List.isEmpty_iff.mp hb
    simp only [Option.some.injEq] at h
    rw [← h, renameCodeOf_of_empty hbe, ambiguousFieldsOf_of_empty hbe, columnMapOf_of_empty hbe]
  · rw [if_neg hb] at h
    cases hr : reporting (ambiguousFieldsOf resp) (columnMapOf resp) with
    | none =>
      rw [hr] at h
      exact absurd h (by simp)
    | some u =>
      rw [hr] at h
      simp only [Option.some.injEq] at h
      exact h.symm

/-! Claim theorems: error handling of the stage. -/

/-- Claim C2: for every model response with zero fenced code blocks, or
with only blocks that are empty after trimming, the stage returns empty
rename code, an empty ambiguous-field list and an empty mapping, and does
not raise. -/
theorem c2_no_blocks_empty_artifacts :
    ∀ resp : List Char, codeBlocksOf resp = [] →
      field_standardization_agent resp = some ⟨[], PyVal.list [], PyVal.dict []⟩ :=
  fun _ h => stage_of_blocks_empty h

/-- Witness for C2 at a response with prose and one blank fenced block. -/
theorem c2_witness :
    codeBlocksOf (("no code here, only a blank block ``` ```").toList) = [] ∧
    field_standardization_agent (("no code here, only a blank block ``` ```").toList) =
      some ⟨[], PyVal.list [], PyVal.dict []⟩ :=
  ⟨by decide, c2_no_blocks_empty_artifacts _ (by decide)⟩

/-- Claim C1 counterexample: the stage does raise for some model response
on which the network call and both guarded evaluations succeeded, so not
every parsing-level failure path is caught locally. -/
theorem c1_cex : field_standardization_agent badIntResp = none := by rfl

/-- Claim C1 (amended): block extraction and the two guarded literal
evaluations never raise past the stage; the stage raises exactly when the
unguarded audit reporting step after them raises. -/
theorem c1_only_reporting_raises :
    ∀ resp : List Char, field_standardization_agent resp = none ↔
      (codeBlocksOf resp ≠ [] ∧
        reporting (ambiguousFieldsOf resp) (columnMapOf resp) = none) := by
  intro resp
  constructor
  · intro h
    by_cases hb : (codeBlocksOf resp).isEmpty
    · rw [stage_of_blocks_empty (List.isEmpty_iff.mp hb)] at h
      exact absurd h (by simp)
    · have hb' : codeBlocksOf resp ≠ [] := by
        intro hc
        exact hb (by simp [hc])
      refine ⟨hb', ?_⟩
      cases hr : reporting (ambiguousFieldsOf resp) (columnMapOf resp) with
      | none => rfl
      | some u =>
        rw [stage_of_reporting_some hb' hr] at h
        exact absurd h (by simp)
  · intro ⟨hb, hr⟩
    exact stage_of_reporting_none hb hr

/-- Witness for C1 discharging the amended equivalence at a concrete
response whose audit reporting raises. -/
theorem c1_witness : field_standardization_agent badIntResp = none :=
  (c1_only_reporting_raises badIntResp).mpr ⟨by decide, by rfl⟩

/-- Claim C10: the catch-and-degrade protection does not cover the audit:
on this response the model reply parses, the rename mapping extracts to a
mapping with an integer value, and the prefix inspection of that value
makes the stage raise. -/
theorem c10_audit_raises_on_int_value :
    codeBlocksOf badIntResp ≠ [] ∧
    columnMapOf badIntResp = PyVal.dict [(PyVal.str (("a").toList), PyVal.int 1)] ∧
    auditMap (columnMapOf badIntResp) = none ∧
    field_standardization_agent badIntResp = none :=
  ⟨by decide, by rfl, by rfl, by rfl⟩

/-! Claim theorems: the pipeline state record. -/

/-- Claim C9 counterexample: the AgentState record of state.py does not
declare the stage-1 input fields. -/
theorem c9_cex : ¬ ("df_columns" ∈ agentStateFields ∧ "sql_query" ∈ agentStateFields ∧
    "special_rules" ∈ agentStateFields) := by
  decide

/-- Claim C9 (amended): the pipeline-state record declares exactly the
dataset path, target column, profile description, generated rename code,
iteration counter and error log; df_columns, sql_query and special_rules
are not declared fields, and the stage reads them from the passed mapping
with state.get defaults, so they are available only when the caller passes
them along and default otherwise. -/
theorem c9_state_fields :
    agentStateFields = ["file_path", "target_column", "metadata_summary", "cleaning_code",
      "iteration_count", "error_log"] ∧
    "df_columns" ∉ agentStateFields ∧ "sql_query" ∉ agentStateFields ∧
    "special_rules" ∉ agentStateFields ∧
    readDfColumns [] = PyVal.list [] ∧
    readSqlQuery [] = PyVal.str (("Not provided").toList) ∧
    readSpecialRules [] = PyVal.str (("None").toList) ∧
    (∀ v : PyVal, ∀ st : List (String × PyVal),
      readDfColumns (("df_columns", v) :: st) = v) := by
  refine ⟨rfl, by decide, by decide, by decide, rfl, rfl, rfl, ?_⟩
  intro v st
  rfl

/-! Claim theorems: response parsing and block extraction. -/

/-- Claim C3 counterexample: a fenced block tagged with a language hint
other than python keeps the hint text inside its extracted content, so a
hint tag is not in general excluded from the content. -/
theorem c3_cex :
    codeBlocksOf (("```sql\nSELECT 1\n```").toList) = [("sql\nSELECT 1").toList] ∧
    ("sql\nSELECT 1").toList ≠ ("SELECT 1").toList :=
  ⟨by decide, by decide⟩

/-- Claim C3 (amended): for every model response, the extracted blocks are
exactly the trimmed non-empty contents of the fenced code regions in order
of appearance, where only an optional literal python hint tag is excluded
from the content (any other language tag stays in the content) and prose
outside fences is ignored; the first block becomes the rename code, the
second (when present) the ambiguous-fields code; with exactly one block
the ambiguous-field list is empty and the rename code equals that block's
trimmed content. -/
theorem c3_blocks_are_trimmed_fenced_regions :
    ∀ s : List Char,
      codeBlocksOf s = ((specFencedBlocks s).map pyStrip).filter (fun b => !b.isEmpty) ∧
      renameCodeOf s = (codeBlocksOf s).headD [] ∧
      ambiguousCodeOf s = (codeBlocksOf s).getD 1 [] ∧
      ((codeBlocksOf s).length = 1 →
        ambiguousFieldsOf s = PyVal.list [] ∧
        ∀ r, field_standardization_agent s = some r →
          r.cleaning_code = (codeBlocksOf s).headD []) := by
  intro s
  refine ⟨by rw [codeBlocksOf, findBlocks_spec], rfl, rfl, ?_⟩
  intro hlen
  obtain ⟨b, hb⟩ := List.length_eq_one.mp hlen
  have hac : ambiguousCodeOf s = [] := by
    rw [ambiguousCodeOf, hb]
    rfl
  refine ⟨?_, ?_⟩
  · rw [ambiguousFieldsOf, hac]
    rfl
  · intro r hr
    rw [stage_result_shape hr]
    rfl

/-- Witness for C3 at a concrete single-block response: the ambiguous list
is empty as the amended claim states. -/
theorem c3_witness :
    ambiguousFieldsOf (("pre```python\nsome code\n```post").toList) = PyVal.list [] :=
  ((c3_blocks_are_trimmed_fenced_regions (("pre```python\nsome code\n```post").toList)).2.2.2
    (by decide)).1

/-! Helpers for the two anchored alias strips. -/

theorem stripLetterDot_pos {a : Char} {r : List Char} (h : a.isAlpha = true) :
    stripLetterDot (a :: '.' :: r) = r := by
  simp [stripLetterDot, h]

theorem stripLetterDot_of_not {s : List Char} (h : hasLetterDot s = false) :
    stripLetterDot s = s := by
  cases s with
  | nil => rfl
  | cons a t =>
    cases t with
    | nil => rfl
    | cons b r =>
      rw [hasLetterDot] at h
      rw [stripLetterDot, if_neg (by simp_all)]

theorem stripWordDot_of_not {s : List Char} (h : hasWordDot s = false) :
    stripWordDot s = s := by
  simp only [hasWordDot] at h
  simp only [stripWordDot]
  by_cases hrun : (s.takeWhile wordChar).isEmpty
  · simp [hrun]
  · have hrun2 : (s.takeWhile wordChar).isEmpty = false := by simpa using hrun
    rw [hrun2] at h
    simp only [Bool.not_false, Bool.true_and] at h
    rw [if_neg (by simp [hrun2])]
    split
    · rename_i rest heq
      rw [heq] at h
      simp at h
    · rfl

theorem stripWordDot_pos {w rest : List Char} (hw : w ≠ [])
    (hall : ∀ c ∈ w, wordChar c = true) :
    stripWordDot (w ++ '.' :: rest) = rest := by
  have hdotrun : List.takeWhile wordChar ('.' :: rest) = [] := by
    rw [List.takeWhile_cons]
    simp [wordChar]
  have htw : (w ++ '.' :: rest).takeWhile wordChar = w := by
    rw [List.takeWhile_append]
    rw [if_pos (by rw [List.takeWhile_eq_self_iff.mpr hall])]
    rw [hdotrun, List.append_nil]
  simp only [stripWordDot, htw]
  rw [if_neg (by simp [hw])]
  have hdrop : (w ++ '.' :: rest).drop w.length = '.' :: rest := List.drop_left _ _
  rw [hdrop]
  rfl

/-! Claim theorems: the column-name pre-processor. -/

/-- Claim C6 counterexample: on a name with a single-letter alias prefix
followed by a word-dot segment, the code strips twice, not at most once:
a single strip would give tab.col, the code gives col. -/
theorem c6_cex :
    cleanName (("t.tab.col").toList) = ("col").toList ∧
    ("col").toList ≠ ("tab.col").toList :=
  ⟨by decide, by decide⟩

/-- Claim C6 (amended): each raw name is trimmed; then the single-letter-dot
strip applies if it matches, and after it the word-dot strip may apply
again to the remainder (so up to two prefixes are stripped in sequence,
not at most one); then the name is trimmed again and lower-cased.  Names
matching neither pattern are only trimmed and lower-cased, and the empty
string passes through unchanged. -/
theorem c6_alias_strip_cases :
    (∀ raw : List Char, ∀ a : Char, ∀ rest : List Char,
      pyStrip raw = a :: '.' :: rest → a.isAlpha = true →
      cleanName raw = lowerStr (pyStrip (stripWordDot rest))) ∧
    (∀ raw : List Char, hasLetterDot (pyStrip raw) = false →
      hasWordDot (pyStrip raw) = false →
      cleanName raw = lowerStr (pyStrip raw)) ∧
    (∀ raw w rest : List Char, hasLetterDot (pyStrip raw) = false →
      pyStrip raw = w ++ '.' :: rest → w ≠ [] → (∀ c ∈ w, wordChar c = true) →
      cleanName raw = lowerStr (pyStrip rest)) ∧
    cleanName [] = [] := by
  refine ⟨?_, ?_, ?_, rfl⟩
  · intro raw a rest h ha
    rw [cleanName, h, stripLetterDot_pos ha]
  · intro raw h1 h2
    rw [cleanName, stripLetterDot_of_not h1, stripWordDot_of_not h2, pyStrip_idem]
  · intro raw w rest h1 h2 h3 h4
    rw [cleanName, h2, stripLetterDot_of_not (h2 ▸ h1), stripWordDot_pos h3 h4]

/-- Witness for C6: the letter-dot case at a concrete input where the
second strip then applies to the remainder. -/
theorem c6_witness :
    cleanName (("t.ab.cd").toList) =
      lowerStr (pyStrip (stripWordDot (("ab.cd").toList))) :=
  c6_alias_strip_cases.1 (("t.ab.cd").toList) 't' (("ab.cd").toList) (by decide) (by decide)

/-! Claim theorems: order and count of the pre-processor output. -/

theorem preprocess_fold_keys :
    ∀ cols : List (List Char), ∀ acc : List (List Char × List Char),
      (∀ c ∈ cols, (acc.any (fun p => p.1 == c)) = false) → cols.Nodup →
      (cols.foldl (fun acc col => dictInsertLC acc col (cleanName col)) acc).map
          (fun p => p.1) =
        acc.map (fun p => p.1) ++ cols := by
  intro cols
  induction cols with
  | nil =>
    intro acc h hn
    simp
  | cons c cs ih =>
    intro acc h hn
    rw [List.foldl_cons]
    have hc := h c (by simp)
    rw [dictInsertLC, if_neg (by simp [hc])]
    rw [ih (acc ++ [(c, cleanName c)]) ?_ (List.nodup_cons.mp hn).2]
    · simp
    · intro d hd
      rw [List.any_append]
      have h1 : acc.any (fun p => p.1 == d) = false := h d (by simp [hd])
      have h2 : c ≠ d := by
        intro hcd
        exact (List.nodup_cons.mp hn).1 (hcd ▸ hd)
      simp [h1, h2]

/-- Claim C7 counterexample: a duplicated raw name is merged by the dict,
so the output does not keep one entry per input element. -/
theorem c7_cex :
    preprocess_column_names [("a").toList, ("a").toList] =
      [(("a").toList, ("a").toList)] ∧
    (preprocess_column_names [("a").toList, ("a").toList]).length ≠ 2 :=
  ⟨by decide, by decide⟩

/-- Claim C7 (amended): for every list of pairwise-distinct raw column
names the output mapping has one entry per input name, in input order,
with nothing dropped or merged even when cleaning produces duplicate
values; duplicate raw names, however, are merged into the first
occurrence as Python dicts do. -/
theorem c7_preprocess_order_and_count :
    ∀ cols : List (List Char), cols.Nodup →
      (preprocess_column_names cols).map (fun p => p.1) = cols ∧
      (preprocess_column_names cols).length = cols.length := by
  intro cols hn
  have h := preprocess_fold_keys cols [] (by simp) hn
  rw [preprocess_column_names]
  constructor
  · simpa using h
  · have hlen := congrArg List.length h
    simpa using hlen

/-- Witness for C7 at a concrete duplicate-free list whose cleaning
produces duplicate values. -/
theorem c7_witness :
    (preprocess_column_names [("t.x").toList, ("a.x").toList]).map (fun p => p.1) =
      [("t.x").toList, ("a.x").toList] ∧
    (preprocess_column_names [("t.x").toList, ("a.x").toList]).length = 2 :=
  c7_preprocess_order_and_count [("t.x").toList, ("a.x").toList] (by decide)

/-! Claim theorems: the audit surface over string-valued mappings. -/

theorem tags_mutually_exclusive (v : List Char) :
    ¬ (matchesAt ambiguousTag v = true ∧ matchesAt unknownTag v = true) := by
  rintro ⟨h1, h2⟩
  have g1 := matchesAt_getElem h1 (j := 0) (by decide)
  have g2 := matchesAt_getElem h2 (j := 0) (by decide)
  rw [g1] at g2
  simp [ambiguousTag, unknownTag] at g2

/-- Claim C8: over an extracted column_map whose values are all strings,
the audit succeeds; the unknown-field list is exactly the keys whose value
starts with the unknown_ tag; the confident count is exactly the number of
values carrying neither tag; every value falls in exactly one of the three
confidence classes; and the reporting never alters the returned state,
which stays the triple of parse artifacts. -/
theorem c8_audit_counts :
    (∀ entries : List (List Char × List Char),
      auditMap (PyVal.dict (entries.map (fun p => (PyVal.str p.1, PyVal.str p.2)))) =
        some ((entries.filter (fun p => matchesAt unknownTag p.2)).map
                (fun p => PyVal.str p.1),
              (entries.filter
                (fun p => !(matchesAt ambiguousTag p.2 || matchesAt unknownTag p.2))).length)) ∧
    (∀ v : List Char,
      ((if !(matchesAt ambiguousTag v || matchesAt unknownTag v) then 1 else 0) +
       (if matchesAt ambiguousTag v then 1 else 0) +
       (if matchesAt unknownTag v then 1 else 0) : Nat) = 1) ∧
    (∀ resp : List Char, ∀ r : StageResult, field_standardization_agent resp = some r →
      r = ⟨renameCodeOf resp, ambiguousFieldsOf resp, columnMapOf resp⟩) := by
  refine ⟨?_, ?_, fun resp r h => stage_result_shape h⟩
  · intro entries
    rw [auditMap]
    rw [if_pos ?_]
    · congr 1
      congr 1
      · rw [List.filter_map]
        rw [List.map_map]
        have harg : ((fun p => valStarts unknownTag p.2) ∘
            fun p : List Char × List Char => (PyVal.str p.1, PyVal.str p.2)) =
            (fun p : List Char × List Char => matchesAt unknownTag p.2) := by
          funext p
          rfl
        rw [harg]
        rfl
      · rw [List.filter_map]
        have harg : ((fun p => !(valStarts ambiguousTag p.2 || valStarts unknownTag p.2)) ∘
            fun p : List Char × List Char => (PyVal.str p.1, PyVal.str p.2)) =
            (fun p : List Char × List Char =>
              !(matchesAt ambiguousTag p.2 || matchesAt unknownTag p.2)) := by
          funext p
          rfl
        rw [harg]
        simp
    · rw [list_all_map]
      simp [PyVal.isStr]
  · intro v
    cases hA : matchesAt ambiguousTag v with
    | false => cases hU : matchesAt unknownTag v with
      | false => simp [hA, hU]
      | true => simp [hA, hU]
    | true => cases hU : matchesAt unknownTag v with
      | false => simp [hA, hU]
      | true => exact absurd ⟨hA, hU⟩ (tags_mutually_exclusive v)

/-- Witness for C8 at a concrete two-entry mapping. -/
theorem c8_witness :
    auditMap (PyVal.dict [(PyVal.str (("a").toList), PyVal.str (("unknown_a").toList)),
                          (PyVal.str (("b").toList), PyVal.str (("B").toList))]) =
      some ([PyVal.str (("a").toList)], 1) := by
  have h := c8_audit_counts.1 [(("a").toList, ("unknown_a").toList),
                               (("b").toList, ("B").toList)]
  exact h.trans (by rfl)

/-! Roundtrip lemmas: the literal evaluator recovers rendered well-formed
artifacts. -/

theorem parseExpr_ws {f : Nat} {c : Char} {x : List Char} (h : isPySpace c = true) :
    parseExpr f (c :: x) = parseExpr f x := by
  cases f with
  | zero => rfl
  | succ f => simp only [parseExpr, skipWs_cons_pos h]

theorem parseItems_ws {f : Nat} {c : Char} {x : List Char} (h : isPySpace c = true) :
    parseItems f (c :: x) = parseItems f x := by
  cases f with
  | zero => rfl
  | succ f => simp only [parseItems, skipWs_cons_pos h]

theorem parsePairs_ws {f : Nat} {c : Char} {x : List Char} (h : isPySpace c = true) :
    parsePairs f (c :: x) = parsePairs f x := by
  cases f with
  | zero => rfl
  | succ f => simp only [parsePairs, skipWs_cons_pos h]

theorem scanDq_roundtrip {s : List Char} (hs : safeStr s = true) :
    ∀ rest, scanDq (s ++ '"' :: rest) = some (s, rest) := by
  induction s with
  | nil =>
    intro rest
    simp [scanDq]
  | cons c cs ih =>
    intro rest
    rw [safeStr, List.all_cons, Bool.and_eq_true] at hs
    obtain ⟨hc, hcs⟩ := hs
    simp only [safeChar] at hc
    obtain ⟨⟨⟨⟨⟨h1, h2⟩, h3⟩, h4⟩, h5⟩, h6⟩ := by simpa using hc
    rw [List.cons_append, scanDq]
    rw [if_neg (by simp [h1]), if_neg (by simp [h2, h3, h4])]
    rw [ih hcs rest]

theorem parseExpr_str {f : Nat} (hf : 1 ≤ f) {s : List Char} (hs : safeStr s = true)
    (rest : List Char) :
    parseExpr f (renderStrLit s ++ rest) = some (PyVal.str s, rest) := by
  cases f with
  | zero => omega
  | succ f =>
    have he : renderStrLit s ++ rest = '"' :: (s ++ '"' :: rest) := by
      simp [renderStrLit]
    rw [he, parseExpr, skipWs_cons_neg (by decide)]
    simp only [scanDq_roundtrip hs rest]
    rfl

theorem parseItems_strs : ∀ (l : List (List Char)) {f : Nat}, l.length + 1 ≤ f →
    l.all safeStr = true → ∀ rest,
    parseItems f (renderItemsStr l ++ ']' :: rest) = some (l.map PyVal.str, rest) := by
  intro l
  induction l with
  | nil =>
    intro f hf hsafe rest
    cases f with
    | zero => omega
    | succ f => rfl
  | cons a t ih =>
    intro f hf hsafe rest
    cases f with
    | zero => omega
    | succ f =>
      rw [List.all_cons, Bool.and_eq_true] at hsafe
      obtain ⟨hsa, hst⟩ := hsafe
      have hf1 : 1 ≤ f := by simp at hf ; omega
      cases t with
      | nil =>
        have he : renderItemsStr [a] ++ ']' :: rest = '"' :: (a ++ '"' :: (']' :: rest)) := by
          simp [renderItemsStr, renderStrLit]
        have hp : parseExpr f ('"' :: (a ++ '"' :: (']' :: rest)))
            = some (PyVal.str a, ']' :: rest) := by
          have hx := parseExpr_str (f := f) hf1 hsa (']' :: rest)
          rwa [show renderStrLit a ++ ']' :: rest = '"' :: (a ++ '"' :: (']' :: rest)) from
            by simp [renderStrLit]] at hx
        rw [he, parseItems, skipWs_cons_neg (by decide)]
        simp only [hp]
        rfl
      | cons b u =>
        have he : renderItemsStr (a :: b :: u) ++ ']' :: rest =
            '"' :: (a ++ '"' :: (',' :: ' ' :: (renderItemsStr (b :: u) ++ ']' :: rest))) := by
          simp [renderItemsStr, renderStrLit]
        have hp : parseExpr f
              ('"' :: (a ++ '"' :: (',' :: ' ' :: (renderItemsStr (b :: u) ++ ']' :: rest))))
            = some (PyVal.str a, ',' :: ' ' :: (renderItemsStr (b :: u) ++ ']' :: rest)) := by
          have hx := parseExpr_str (f := f) hf1 hsa
            (',' :: ' ' :: (renderItemsStr (b :: u) ++ ']' :: rest))
          rwa [show renderStrLit a ++ ',' :: ' ' :: (renderItemsStr (b :: u) ++ ']' :: rest) =
            '"' :: (a ++ '"' :: (',' :: ' ' :: (renderItemsStr (b :: u) ++ ']' :: rest))) from
            by simp [renderStrLit]] at hx
        have hstep : parseItems (f + 1)
              ('"' :: (a ++ '"' :: (',' :: ' ' :: (renderItemsStr (b :: u) ++ ']' :: rest))))
            = match parseItems f (' ' :: (renderItemsStr (b :: u) ++ ']' :: rest)) with
              | some (vs, r3) => some (PyVal.str a :: vs, r3)
              | none => none := by
          rw [parseItems, skipWs_cons_neg (by decide)]
          simp only [hp]
          rfl
        have hrec : parseItems f (' ' :: (renderItemsStr (b :: u) ++ ']' :: rest))
            = some ((b :: u).map PyVal.str, rest) := by
          rw [parseItems_ws (by decide)]
          exact ih (by simp at hf ⊢ ; omega) hst rest
        rw [he, hstep, hrec]
        rfl

theorem parseExpr_strList {l : List (List Char)} {f : Nat} (hf : l.length + 2 ≤ f)
    (hsafe : l.all safeStr = true) (rest : List Char) :
    parseExpr f (renderListOfStr l ++ rest) = some (PyVal.list (l.map PyVal.str), rest) := by
  cases f with
  | zero => omega
  | succ f =>
    have he : renderListOfStr l ++ rest = '[' :: (renderItemsStr l ++ ']' :: rest) := by
      simp [renderListOfStr]
    rw [he, parseExpr, skipWs_cons_neg (by decide)]
    simp only [parseItems_strs l (f := f) (by omega) hsafe rest]
    rfl

theorem pyBeq_str (a b : List Char) : (PyVal.str a == PyVal.str b) = (a == b) := rfl

theorem pyDictInsert_fresh {d : List (PyVal × PyVal)} {k v : PyVal}
    (h : d.any (fun p => p.1 == k) = false) :
    pyDictInsert d k v = d ++ [(k, v)] := by
  rw [pyDictInsert, if_neg (by simp [h])]

theorem foldl_pyDictInsert_strs :
    ∀ (ps : List (List Char × List Char)) (acc : List (PyVal × PyVal)),
      (∀ p ∈ ps, acc.any (fun q => q.1 == PyVal.str p.1) = false) →
      (ps.map (fun p => p.1)).Nodup →
      (ps.map (fun p => (PyVal.str p.1, PyVal.str p.2))).foldl
          (fun d p => pyDictInsert d p.1 p.2) acc =
        acc ++ ps.map (fun p => (PyVal.str p.1, PyVal.str p.2)) := by
  intro ps
  induction ps with
  | nil =>
    intro acc h hn
    simp
  | cons p t ih =>
    intro acc h hn
    have hn2 : p.1 ∉ t.map (fun r => r.1) ∧ (t.map (fun r => r.1)).Nodup := by
      rw [List.map_cons] at hn
      exact List.nodup_cons.mp hn
    rw [List.map_cons, List.foldl_cons]
    rw [pyDictInsert_fresh (h p (by simp))]
    rw [ih (acc ++ [(PyVal.str p.1, PyVal.str p.2)]) ?_ hn2.2]
    · simp
    · intro q hq
      rw [List.any_append]
      have h1 := h q (by simp [hq])
      have hne : p.1 ≠ q.1 := by
        intro hcc
        exact hn2.1 (hcc ▸ List.mem_map_of_mem (fun r => r.1) hq)
      simp only [h1, Bool.false_or, List.any_cons, List.any_nil, Bool.or_false]
      rw [pyBeq_str]
      simp [hne]

theorem parsePairs_strs : ∀ (m : List (List Char × List Char)) {f : Nat},
    m.length + 1 ≤ f →
    m.all (fun p => safeStr p.1 && safeStr p.2) = true → ∀ rest,
    parsePairs f (renderPairsStr m ++ Char.ofNat 125 :: rest) =
      some (m.map (fun p => (PyVal.str p.1, PyVal.str p.2)), rest) := by
  intro m
  induction m with
  | nil =>
    intro f hf hsafe rest
    cases f with
    | zero => omega
    | succ f => rfl
  | cons p t ih =>
    intro f hf hsafe rest
    cases f with
    | zero => omega
    | succ f =>
      rw [List.all_cons, Bool.and_eq_true] at hsafe
      obtain ⟨hp12, hst⟩ := hsafe
      rw [Bool.and_eq_true] at hp12
      obtain ⟨hs1, hs2⟩ := hp12
      have hf1 : 1 ≤ f := by simp at hf ; omega
      cases t with
      | nil =>
        have he : renderPairsStr [p] ++ Char.ofNat 125 :: rest =
            '"' :: (p.1 ++ '"' ::
              (':' :: ' ' :: (renderStrLit p.2 ++ Char.ofNat 125 :: rest))) := by
          simp [renderPairsStr, renderStrLit]
        have hkey : parseExpr f ('"' :: (p.1 ++ '"' ::
              (':' :: ' ' :: (renderStrLit p.2 ++ Char.ofNat 125 :: rest))))
            = some (PyVal.str p.1,
                ':' :: ' ' :: (renderStrLit p.2 ++ Char.ofNat 125 :: rest)) := by
          have hx := parseExpr_str (f := f) hf1 hs1
            (':' :: ' ' :: (renderStrLit p.2 ++ Char.ofNat 125 :: rest))
          rwa [show renderStrLit p.1 ++
              ':' :: ' ' :: (renderStrLit p.2 ++ Char.ofNat 125 :: rest) =
              '"' :: (p.1 ++ '"' ::
                (':' :: ' ' :: (renderStrLit p.2 ++ Char.ofNat 125 :: rest))) from
            by simp [renderStrLit]] at hx
        have hval : parseExpr f (' ' :: (renderStrLit p.2 ++ Char.ofNat 125 :: rest))
            = some (PyVal.str p.2, Char.ofNat 125 :: rest) := by
          rw [parseExpr_ws (by decide)]
          exact parseExpr_str hf1 hs2 (Char.ofNat 125 :: rest)
        rw [he, parsePairs, skipWs_cons_neg (by decide)]
        simp only [hkey]
        show (match parseExpr f (' ' :: (renderStrLit p.2 ++ Char.ofNat 125 :: rest)) with
          | none => none
          | some (v, r3) =>
            match skipWs r3 with
            | ',' :: r4 =>
              match parsePairs f r4 with
              | some (ps, r5) => some ((PyVal.str p.1, v) :: ps, r5)
              | none => none
            | c2 :: r4 =>
              if c2 == Char.ofNat 125 then some ([(PyVal.str p.1, v)], r4) else none
            | [] => none) = _
        rw [hval]
        rfl
      | cons q u =>
        have he : renderPairsStr (p :: q :: u) ++ Char.ofNat 125 :: rest =
            '"' :: (p.1 ++ '"' :: (':' :: ' ' :: (renderStrLit p.2 ++ ',' :: ' ' ::
              (renderPairsStr (q :: u) ++ Char.ofNat 125 :: rest)))) := by
          simp [renderPairsStr, renderStrLit]
        have hkey : parseExpr f ('"' :: (p.1 ++ '"' ::
              (':' :: ' ' :: (renderStrLit p.2 ++ ',' :: ' ' ::
                (renderPairsStr (q :: u) ++ Char.ofNat 125 :: rest)))))
            = some (PyVal.str p.1, ':' :: ' ' :: (renderStrLit p.2 ++ ',' :: ' ' ::
                (renderPairsStr (q :: u) ++ Char.ofNat 125 :: rest))) := by
          have hx := parseExpr_str (f := f) hf1 hs1
            (':' :: ' ' :: (renderStrLit p.2 ++ ',' :: ' ' ::
              (renderPairsStr (q :: u) ++ Char.ofNat 125 :: rest)))
          rwa [show renderStrLit p.1 ++ ':' :: ' ' :: (renderStrLit p.2 ++ ',' :: ' ' ::
              (renderPairsStr (q :: u) ++ Char.ofNat 125 :: rest)) =
              '"' :: (p.1 ++ '"' :: (':' :: ' ' :: (renderStrLit p.2 ++ ',' :: ' ' ::
                (renderPairsStr (q :: u) ++ Char.ofNat 125 :: rest)))) from
            by simp [renderStrLit]] at hx
        have hval : parseExpr f (' ' :: (renderStrLit p.2 ++ ',' :: ' ' ::
              (renderPairsStr (q :: u) ++ Char.ofNat 125 :: rest)))
            = some (PyVal.str p.2, ',' :: ' ' ::
                (renderPairsStr (q :: u) ++ Char.ofNat 125 :: rest)) := by
          rw [parseExpr_ws (by decide)]
          exact parseExpr_str hf1 hs2 (',' :: ' ' ::
            (renderPairsStr (q :: u) ++ Char.ofNat 125 :: rest))
        have hrec : parsePairs f (' ' :: (renderPairsStr (q :: u) ++ Char.ofNat 125 :: rest))
            = some ((q :: u).map (fun r => (PyVal.str r.1, PyVal.str r.2)), rest) := by
          rw [parsePairs_ws (by decide)]
          exact ih (by simp at hf ⊢ ; omega) hst rest
        rw [he, parsePairs, skipWs_cons_neg (by decide)]
        simp only [hkey]
        show (match parseExpr f (' ' :: (renderStrLit p.2 ++ ',' :: ' ' ::
              (renderPairsStr (q :: u) ++ Char.ofNat 125 :: rest))) with
          | none => none
          | some (v, r3) =>
            match skipWs r3 with
            | ',' :: r4 =>
              match parsePairs f r4 with
              | some (ps, r5) => some ((PyVal.str p.1, v) :: ps, r5)
              | none => none
            | c2 :: r4 =>
              if c2 == Char.ofNat 125 then some ([(PyVal.str p.1, v)], r4) else none
            | [] => none) = _
        rw [hval]
        show (match parsePairs f (' ' :: (renderPairsStr (q :: u) ++ Char.ofNat 125 :: rest)) with
          | some (ps, r5) => some ((PyVal.str p.1, PyVal.str p.2) :: ps, r5)
          | none => none) = _
        rw [hrec]
        rfl

theorem parseExpr_strDict {m : List (List Char × List Char)} {f : Nat}
    (hf : m.length + 2 ≤ f)
    (hsafe : m.all (fun p => safeStr p.1 && safeStr p.2) = true)
    (hn : (m.map (fun p => p.1)).Nodup) (rest : List Char) :
    parseExpr f (renderDictStr m ++ rest) =
      some (PyVal.dict (m.map (fun p => (PyVal.str p.1, PyVal.str p.2))), rest) := by
  cases f with
  | zero => omega
  | succ f =>
    have he : renderDictStr m ++ rest =
        Char.ofNat 123 :: (renderPairsStr m ++ Char.ofNat 125 :: rest) := by
      simp [renderDictStr]
    rw [he, parseExpr, skipWs_cons_neg (by decide)]
    show (match parsePairs f (renderPairsStr m ++ Char.ofNat 125 :: rest) with
      | some (ps, r) =>
        some (PyVal.dict (ps.foldl (fun d (p : PyVal × PyVal) => pyDictInsert d p.1 p.2) []), r)
      | none => none) = _
    rw [parsePairs_strs m (f := f) (by omega) hsafe rest]
    show some (PyVal.dict ((m.map (fun p => (PyVal.str p.1, PyVal.str p.2))).foldl
        (fun d p => pyDictInsert d p.1 p.2) []), rest) = _
    rw [foldl_pyDictInsert_strs m [] (fun p hp => rfl) hn]
    simp

theorem parsePairs_mixed : ∀ (ps : List (List Char × List Char × PyVal)) (f0 : Nat),
    1 ≤ f0 →
    (∀ pr ∈ ps, safeStr pr.1 = true ∧
      ∀ g, f0 ≤ g → ∀ rest, parseExpr g (pr.2.1 ++ rest) = some (pr.2.2, rest)) →
    ∀ {f : Nat}, 2 * ps.length + f0 ≤ f → ∀ rest,
    parsePairs f (renderMixed ps ++ Char.ofNat 125 :: rest) =
      some (ps.map (fun pr => (PyVal.str pr.1, pr.2.2)), rest) := by
  intro ps f0 hf0 hps
  induction ps with
  | nil =>
    intro f hf rest
    cases f with
    | zero => omega
    | succ f => rfl
  | cons p t ih =>
    intro f hf rest
    cases f with
    | zero => omega
    | succ f =>
      obtain ⟨hkeysafe, hvp⟩ := hps p (by simp)
      have hf1 : 1 ≤ f := by simp at hf ; omega
      have hfv : f0 ≤ f := by simp at hf ; omega
      cases t with
      | nil =>
        have he : renderMixed [p] ++ Char.ofNat 125 :: rest =
            '"' :: (p.1 ++ '"' :: (':' :: ' ' :: (p.2.1 ++ Char.ofNat 125 :: rest))) := by
          simp [renderMixed, renderStrLit]
        have hkey : parseExpr f ('"' :: (p.1 ++ '"' ::
              (':' :: ' ' :: (p.2.1 ++ Char.ofNat 125 :: rest))))
            = some (PyVal.str p.1, ':' :: ' ' :: (p.2.1 ++ Char.ofNat 125 :: rest)) := by
          have hx := parseExpr_str (f := f) hf1 hkeysafe
            (':' :: ' ' :: (p.2.1 ++ Char.ofNat 125 :: rest))
          rwa [show renderStrLit p.1 ++ ':' :: ' ' :: (p.2.1 ++ Char.ofNat 125 :: rest) =
              '"' :: (p.1 ++ '"' :: (':' :: ' ' :: (p.2.1 ++ Char.ofNat 125 :: rest))) from
            by simp [renderStrLit]] at hx
        have hval : parseExpr f (' ' :: (p.2.1 ++ Char.ofNat 125 :: rest))
            = some (p.2.2, Char.ofNat 125 :: rest) := by
          rw [parseExpr_ws (by decide)]
          exact hvp f hfv (Char.ofNat 125 :: rest)
        rw [he, parsePairs, skipWs_cons_neg (by decide)]
        simp only [hkey]
        show (match parseExpr f (' ' :: (p.2.1 ++ Char.ofNat 125 :: rest)) with
          | none => none
          | some (v, r3) =>
            match skipWs r3 with
            | ',' :: r4 =>
              match parsePairs f r4 with
              | some (ps2, r5) => some ((PyVal.str p.1, v) :: ps2, r5)
              | none => none
            | c2 :: r4 =>
              if c2 == Char.ofNat 125 then some ([(PyVal.str p.1, v)], r4) else none
            | [] => none) = _
        rw [hval]
        rfl
      | cons q u =>
        have he : renderMixed (p :: q :: u) ++ Char.ofNat 125 :: rest =
            '"' :: (p.1 ++ '"' :: (':' :: ' ' :: (p.2.1 ++ ',' :: ' ' ::
              (renderMixed (q :: u) ++ Char.ofNat 125 :: rest)))) := by
          simp [renderMixed, renderStrLit]
        have hkey : parseExpr f ('"' :: (p.1 ++ '"' :: (':' :: ' ' :: (p.2.1 ++ ',' :: ' ' ::
              (renderMixed (q :: u) ++ Char.ofNat 125 :: rest)))))
            = some (PyVal.str p.1, ':' :: ' ' :: (p.2.1 ++ ',' :: ' ' ::
                (renderMixed (q :: u) ++ Char.ofNat 125 :: rest))) := by
          have hx := parseExpr_str (f := f) hf1 hkeysafe
            (':' :: ' ' :: (p.2.1 ++ ',' :: ' ' ::
              (renderMixed (q :: u) ++ Char.ofNat 125 :: rest)))
          rwa [show renderStrLit p.1 ++ ':' :: ' ' :: (p.2.1 ++ ',' :: ' ' ::
              (renderMixed (q :: u) ++ Char.ofNat 125 :: rest)) =
              '"' :: (p.1 ++ '"' :: (':' :: ' ' :: (p.2.1 ++ ',' :: ' ' ::
                (renderMixed (q :: u) ++ Char.ofNat 125 :: rest)))) from
            by simp [renderStrLit]] at hx
        have hval : parseExpr f (' ' :: (p.2.1 ++ ',' :: ' ' ::
              (renderMixed (q :: u) ++ Char.ofNat 125 :: rest)))
            = some (p.2.2, ',' :: ' ' ::
                (renderMixed (q :: u) ++ Char.ofNat 125 :: rest)) := by
          rw [parseExpr_ws (by decide)]
          exact hvp f hfv (',' :: ' ' :: (renderMixed (q :: u) ++ Char.ofNat 125 :: rest))
        have hrec : parsePairs f (' ' :: (renderMixed (q :: u) ++ Char.ofNat 125 :: rest))
            = some ((q :: u).map (fun pr => (PyVal.str pr.1, pr.2.2)), rest) := by
          rw [parsePairs_ws (by decide)]
          exact ih (fun pr hpr => hps pr (by simp [hpr])) (by simp at hf ⊢ ; omega) rest
        rw [he, parsePairs, skipWs_cons_neg (by decide)]
        simp only [hkey]
        show (match parseExpr f (' ' :: (p.2.1 ++ ',' :: ' ' ::
              (renderMixed (q :: u) ++ Char.ofNat 125 :: rest))) with
          | none => none
          | some (v, r3) =>
            match skipWs r3 with
            | ',' :: r4 =>
              match parsePairs f r4 with
              | some (ps2, r5) => some ((PyVal.str p.1, v) :: ps2, r5)
              | none => none
            | c2 :: r4 =>
              if c2 == Char.ofNat 125 then some ([(PyVal.str p.1, v)], r4) else none
            | [] => none) = _
        rw [hval]
        show (match parsePairs f (' ' :: (renderMixed (q :: u) ++ Char.ofNat 125 :: rest)) with
          | some (ps2, r5) => some ((PyVal.str p.1, p.2.2) :: ps2, r5)
          | none => none) = _
        rw [hrec]
        rfl

theorem parseItems_mixed : ∀ (ps : List (List Char × PyVal)) (f0 : Nat),
    1 ≤ f0 →
    (∀ pr ∈ ps, (∃ c cs, pr.1 = c :: cs ∧ isPySpace c = false ∧ (c == ']') = false) ∧
      ∀ g, f0 ≤ g → ∀ rest, parseExpr g (pr.1 ++ rest) = some (pr.2, rest)) →
    ∀ {f : Nat}, 2 * ps.length + f0 ≤ f → ∀ rest,
    parseItems f (renderMixedItems ps ++ ']' :: rest) =
      some (ps.map (fun pr => pr.2), rest) := by
  intro ps f0 hf0 hps
  induction ps with
  | nil =>
    intro f hf rest
    cases f with
    | zero => omega
    | succ f => rfl
  | cons p t ih =>
    intro f hf rest
    cases f with
    | zero => omega
    | succ f =>
      obtain ⟨⟨c, cs, hpc, hcws, hcbr⟩, hvp⟩ := hps p (by simp)
      have hfv : f0 ≤ f := by simp at hf ; omega
      cases t with
      | nil =>
        have he : renderMixedItems [p] ++ ']' :: rest = c :: (cs ++ ']' :: rest) := by
          simp [renderMixedItems, hpc]
        have hval : parseExpr f (c :: (cs ++ ']' :: rest)) = some (p.2, ']' :: rest) := by
          have hx := hvp f hfv (']' :: rest)
          rwa [show p.1 ++ ']' :: rest = c :: (cs ++ ']' :: rest) from by simp [hpc]] at hx
        rw [he, parseItems, skipWs_cons_neg hcws]
        show (if (c == ']') = true then some ([], cs ++ ']' :: rest)
          else match parseExpr f (c :: (cs ++ ']' :: rest)) with
            | none => none
            | some (v, r) =>
              match skipWs r with
              | ',' :: r2 =>
                match parseItems f r2 with
                | some (vs, r3) => some (v :: vs, r3)
                | none => none
              | ']' :: r2 => some ([v], r2)
              | x => none) = _
        rw [if_neg (by simp [hcbr]), hval]
        rfl
      | cons q u =>
        have he : renderMixedItems (p :: q :: u) ++ ']' :: rest =
            c :: (cs ++ ',' :: ' ' :: (renderMixedItems (q :: u) ++ ']' :: rest)) := by
          simp [renderMixedItems, hpc]
        have hval : parseExpr f
              (c :: (cs ++ ',' :: ' ' :: (renderMixedItems (q :: u) ++ ']' :: rest)))
            = some (p.2, ',' :: ' ' :: (renderMixedItems (q :: u) ++ ']' :: rest)) := by
          have hx := hvp f hfv (',' :: ' ' :: (renderMixedItems (q :: u) ++ ']' :: rest))
          rwa [show p.1 ++ ',' :: ' ' :: (renderMixedItems (q :: u) ++ ']' :: rest) =
            c :: (cs ++ ',' :: ' ' :: (renderMixedItems (q :: u) ++ ']' :: rest)) from
            by simp [hpc]] at hx
        have hrec : parseItems f (' ' :: (renderMixedItems (q :: u) ++ ']' :: rest))
            = some ((q :: u).map (fun pr => pr.2), rest) := by
          rw [parseItems_ws (by decide)]
          exact ih (fun pr hpr => hps pr (by simp [hpr])) (by simp at hf ⊢ ; omega) rest
        rw [he, parseItems, skipWs_cons_neg hcws]
        show (if (c == ']') = true then
            some ([], cs ++ ',' :: ' ' :: (renderMixedItems (q :: u) ++ ']' :: rest))
          else match parseExpr f
              (c :: (cs ++ ',' :: ' ' :: (renderMixedItems (q :: u) ++ ']' :: rest))) with
            | none => none
            | some (v, r) =>
              match skipWs r with
              | ',' :: r2 =>
                match parseItems f r2 with
                | some (vs, r3) => some (v :: vs, r3)
                | none => none
              | ']' :: r2 => some ([v], r2)
              | x => none) = _
        rw [if_neg (by simp [hcbr]), hval]
        show (match parseItems f (' ' :: (renderMixedItems (q :: u) ++ ']' :: rest)) with
          | some (vs, r3) => some (p.2 :: vs, r3)
          | none => none) = _
        rw [hrec]
        rfl

theorem foldl_pyDictInsert_strKeys :
    ∀ (ps : List (List Char × PyVal)) (acc : List (PyVal × PyVal)),
      (∀ p ∈ ps, acc.any (fun q => q.1 == PyVal.str p.1) = false) →
      (ps.map (fun p => p.1)).Nodup →
      (ps.map (fun p => (PyVal.str p.1, p.2))).foldl
          (fun d p => pyDictInsert d p.1 p.2) acc =
        acc ++ ps.map (fun p => (PyVal.str p.1, p.2)) := by
  intro ps
  induction ps with
  | nil =>
    intro acc h hn
    simp
  | cons p t ih =>
    intro acc h hn
    have hn2 : p.1 ∉ t.map (fun r => r.1) ∧ (t.map (fun r => r.1)).Nodup := by
      rw [List.map_cons] at hn
      exact List.nodup_cons.mp hn
    rw [List.map_cons, List.foldl_cons]
    rw [pyDictInsert_fresh (h p (by simp))]
    rw [ih (acc ++ [(PyVal.str p.1, p.2)]) ?_ hn2.2]
    · simp
    · intro q hq
      rw [List.any_append]
      have h1 := h q (by simp [hq])
      have hne : p.1 ≠ q.1 := by
        intro hcc
        exact hn2.1 (hcc ▸ List.mem_map_of_mem (fun r => r.1) hq)
      simp only [h1, Bool.false_or, List.any_cons, List.any_nil, Bool.or_false]
      rw [pyBeq_str]
      simp [hne]

theorem parseExpr_mixedDict (ps : List (List Char × List Char × PyVal)) (f0 : Nat)
    (hf0 : 1 ≤ f0)
    (hps : ∀ pr ∈ ps, safeStr pr.1 = true ∧
      ∀ g, f0 ≤ g → ∀ rest, parseExpr g (pr.2.1 ++ rest) = some (pr.2.2, rest))
    (hn : (ps.map (fun pr => pr.1)).Nodup)
    {f : Nat} (hf : 2 * ps.length + f0 + 1 ≤ f) (rest : List Char) :
    parseExpr f (Char.ofNat 123 :: (renderMixed ps ++ Char.ofNat 125 :: rest)) =
      some (PyVal.dict (ps.map (fun pr => (PyVal.str pr.1, pr.2.2))), rest) := by
  cases f with
  | zero => omega
  | succ f =>
    rw [parseExpr, skipWs_cons_neg (by decide)]
    show (match parsePairs f (renderMixed ps ++ Char.ofNat 125 :: rest) with
      | some (ps2, r) =>
        some (PyVal.dict (ps2.foldl (fun d (p : PyVal × PyVal) => pyDictInsert d p.1 p.2) []),
          r)
      | none => none) = _
    rw [parsePairs_mixed ps f0 hf0 hps (by omega) rest]
    show some (PyVal.dict ((ps.map (fun pr => (PyVal.str pr.1, pr.2.2))).foldl
        (fun d p => pyDictInsert d p.1 p.2) []), rest) = _
    have hfold := foldl_pyDictInsert_strKeys (ps.map (fun pr => (pr.1, pr.2.2))) []
      (fun p hp => rfl) (by simpa [List.map_map] using hn)
    rw [show ps.map (fun pr => (PyVal.str pr.1, pr.2.2)) =
      (ps.map (fun pr => (pr.1, pr.2.2))).map (fun p => (PyVal.str p.1, p.2)) from
      by rw [List.map_map] ; rfl]
    rw [hfold]
    simp

theorem parseExpr_mixedList (ps : List (List Char × PyVal)) (f0 : Nat)
    (hf0 : 1 ≤ f0)
    (hps : ∀ pr ∈ ps, (∃ c cs, pr.1 = c :: cs ∧ isPySpace c = false ∧ (c == ']') = false) ∧
      ∀ g, f0 ≤ g → ∀ rest, parseExpr g (pr.1 ++ rest) = some (pr.2, rest))
    {f : Nat} (hf : 2 * ps.length + f0 + 1 ≤ f) (rest : List Char) :
    parseExpr f ('[' :: (renderMixedItems ps ++ ']' :: rest)) =
      some (PyVal.list (ps.map (fun pr => pr.2)), rest) := by
  cases f with
  | zero => omega
  | succ f =>
    rw [parseExpr, skipWs_cons_neg (by decide)]
    show (match parseItems f (renderMixedItems ps ++ ']' :: rest) with
      | some (vs, r) => some (PyVal.list vs, r)
      | none => none) = _
    rw [parseItems_mixed ps f0 hf0 hps (by omega) rest]

theorem renderRec_as_mixed (r : AmbRec) :
    renderRec r = Char.ofNat 123 :: (renderMixed (recPairs r) ++ [Char.ofNat 125]) := by
  simp [renderRec, recPairs, renderMixed, renderStrLit]

theorem safeRec_parts {r : AmbRec} (h : safeRec r = true) :
    safeStr r.original_column = true ∧ r.candidates.all safeStr = true ∧
    safeStr r.reason = true ∧ safeStr r.sample_values = true := by
  rw [safeRec] at h
  simp only [Bool.and_eq_true] at h
  exact ⟨h.1.1.1, h.1.1.2, h.1.2, h.2⟩

theorem parseExpr_rec (r : AmbRec) (hr : safeRec r = true) {f : Nat}
    (hf : r.candidates.length + 12 ≤ f) (rest : List Char) :
    parseExpr f (renderRec r ++ rest) = some (recVal r, rest) := by
  obtain ⟨hoc, hcand, hreason, hsv⟩ := safeRec_parts hr
  have he : renderRec r ++ rest =
      Char.ofNat 123 :: (renderMixed (recPairs r) ++ Char.ofNat 125 :: rest) := by
    rw [renderRec_as_mixed]
    simp
  rw [he]
  have hmain := parseExpr_mixedDict (recPairs r) (r.candidates.length + 2) (by omega)
    ?_ ?_ (f := f) ?_ rest
  · rw [hmain]
    rfl
  · intro pr hpr
    rw [recPairs] at hpr
    simp only [List.mem_cons, List.mem_singleton] at hpr
    rcases hpr with h1 | h1 | h1 | h1 | h1
    · subst h1
      exact ⟨by show safeStr ocKey = true ; decide,
        fun g hg rest2 => parseExpr_str (by omega) hoc rest2⟩
    · subst h1
      refine ⟨by show safeStr candKey = true ; decide, fun g hg rest2 => ?_⟩
      exact parseExpr_strList (by simpa using hg) hcand rest2
    · subst h1
      exact ⟨by show safeStr reasonKey = true ; decide,
        fun g hg rest2 => parseExpr_str (by omega) hreason rest2⟩
    · subst h1
      exact ⟨by show safeStr svKey = true ; decide,
        fun g hg rest2 => parseExpr_str (by omega) hsv rest2⟩
    · exact absurd h1 (by simp)
  · rw [recPairs]
    show ([ocKey, candKey, reasonKey, svKey] : List (List Char)).Nodup
    decide
  · rw [recPairs]
    simp
    omega

theorem renderRecItems_as_mixed : ∀ rs : List AmbRec,
    renderMixedItems (rs.map (fun r => (renderRec r, recVal r))) = renderRecItems rs := by
  intro rs
  induction rs with
  | nil => rfl
  | cons r t ih =>
    cases t with
    | nil => rfl
    | cons q u =>
      rw [List.map_cons, List.map_cons, renderMixedItems, renderRecItems]
      rw [← ih, List.map_cons]

theorem recsBound_ge {rs : List AmbRec} {r : AmbRec} (h : r ∈ rs) :
    r.candidates.length + 12 ≤ recsBound rs := by
  induction rs with
  | nil => simp at h
  | cons q t ih =>
    rw [recsBound, List.foldr_cons]
    rcases List.mem_cons.mp h with h1 | h1
    · subst h1
      exact Nat.le_max_left _ _
    · exact le_trans (ih h1) (Nat.le_max_right _ _)

theorem recsBound_pos (rs : List AmbRec) : 1 ≤ recsBound rs := by
  induction rs with
  | nil => simp [recsBound]
  | cons q t ih =>
    rw [recsBound, List.foldr_cons]
    exact le_trans ih (Nat.le_max_right _ _)

theorem parseExpr_recList (rs : List AmbRec) (hr : rs.all safeRec = true) {f : Nat}
    (hf : 2 * rs.length + recsBound rs + 1 ≤ f) (rest : List Char) :
    parseExpr f (renderRecList rs ++ rest) = some (PyVal.list (rs.map recVal), rest) := by
  have he : renderRecList rs ++ rest =
      '[' :: (renderMixedItems (rs.map (fun r => (renderRec r, recVal r))) ++ ']' :: rest) := by
    rw [renderRecList, renderRecItems_as_mixed]
    simp
  rw [he]
  have hmain := parseExpr_mixedList (rs.map (fun r => (renderRec r, recVal r)))
    (recsBound rs) (recsBound_pos rs) ?_ (f := f) (by simpa using hf) rest
  · rw [hmain, List.map_map]
    rfl
  · intro pr hpr
    rw [List.mem_map] at hpr
    obtain ⟨r, hrmem, hpr⟩ := hpr
    subst hpr
    constructor
    · refine ⟨Char.ofNat 123, renderMixed (recPairs r) ++ [Char.ofNat 125], ?_, by decide,
        by decide⟩
      exact renderRec_as_mixed r
    · intro g hg rest2
      have hsafe : safeRec r = true := by
        rw [List.all_eq_true] at hr
        exact hr r hrmem
      exact parseExpr_rec r hsafe (le_trans (recsBound_ge hrmem) hg) rest2

theorem renderPairsStr_length (m : List (List Char × List Char)) :
    m.length ≤ (renderPairsStr m).length + 1 := by
  induction m with
  | nil => simp [renderPairsStr]
  | cons p t ih =>
    cases t with
    | nil => simp [renderPairsStr, renderStrLit]
    | cons q u =>
      rw [renderPairsStr]
      simp only [List.length_append, List.length_cons] at ih ⊢
      simp [renderStrLit] at ih ⊢
      omega

theorem renderItemsStr_length (l : List (List Char)) :
    l.length ≤ (renderItemsStr l).length + 1 := by
  induction l with
  | nil => simp [renderItemsStr]
  | cons s t ih =>
    cases t with
    | nil => simp [renderItemsStr, renderStrLit]
    | cons q u =>
      rw [renderItemsStr]
      simp only [List.length_append, List.length_cons] at ih ⊢
      simp [renderStrLit] at ih ⊢
      omega

theorem parseStmts_end_nl {f : Nat} (hf : 1 ≤ f) (ns : List (List Char × PyVal)) :
    parseStmts f [Char.ofNat 10] ns = some ns := by
  cases f with
  | zero => omega
  | succ f => rfl

theorem parseStmts_end_nil {f : Nat} (hf : 1 ≤ f) (ns : List (List Char × PyVal)) :
    parseStmts f [] ns = some ns := by
  cases f with
  | zero => omega
  | succ f => rfl

theorem parseStmts_rm_step (f : Nat) (X : List Char) (ns : List (List Char × PyVal)) :
    parseStmts (f + 1) (renameAssign ++ X) ns =
      (match parseExpr ((' ' :: X).length + 1) (' ' :: X) with
       | none => none
       | some (v, r3) => parseStmts f r3 (nsInsert ns renameMapName v)) := rfl

theorem parseStmts_amb_step (f : Nat) (X : List Char) (ns : List (List Char × PyVal)) :
    parseStmts (f + 1) (ambAssign ++ X) ns =
      (match parseExpr ((' ' :: X).length + 1) (' ' :: X) with
       | none => none
       | some (v, r3) => parseStmts f r3 (nsInsert ns ambiguousFieldsName v)) := rfl

theorem pyExec_mapAssign (m : List (List Char × List Char))
    (hsafe : m.all (fun p => safeStr p.1 && safeStr p.2) = true)
    (hn : (m.map (fun p => p.1)).Nodup) :
    pyExec (renameAssign ++ (renderDictStr m ++ ['\n'])) =
      some [(renameMapName,
             PyVal.dict (m.map (fun p => (PyVal.str p.1, PyVal.str p.2))))] := by
  have hplen := renderPairsStr_length m
  rw [pyExec]
  rw [show (renameAssign ++ (renderDictStr m ++ ['\n'])).length + 1 =
    (renameAssign ++ (renderDictStr m ++ ['\n'])).length + 1 from rfl]
  rw [parseStmts_rm_step ((renameAssign ++ (renderDictStr m ++ ['\n'])).length)
    (renderDictStr m ++ ['\n']) []]
  rw [parseExpr_ws (by decide)]
  rw [parseExpr_strDict (f := (' ' :: (renderDictStr m ++ ['\n'])).length + 1)
    (by simp [renderDictStr] ; omega) hsafe hn ['\n']]
  show parseStmts (renameAssign ++ (renderDictStr m ++ ['\n'])).length [Char.ofNat 10]
    (nsInsert [] renameMapName
      (PyVal.dict (m.map (fun p => (PyVal.str p.1, PyVal.str p.2))))) = _
  rw [parseStmts_end_nl ?_]
  · rfl
  · rw [List.length_append]
    have h13 : renameAssign.length = 13 := rfl
    omega

theorem pyExec_ambAssign (rs : List AmbRec) (hsafe : rs.all safeRec = true)
    (hrb : 2 * rs.length + recsBound rs + 1 ≤
      (' ' :: renderRecList rs).length + 1) :
    pyExec (ambAssign ++ renderRecList rs) =
      some [(ambiguousFieldsName, PyVal.list (rs.map recVal))] := by
  rw [pyExec]
  rw [parseStmts_amb_step ((ambAssign ++ renderRecList rs).length)
    (renderRecList rs) []]
  have hval := parseExpr_recList rs hsafe
    (f := (' ' :: renderRecList rs).length + 1) hrb []
  rw [show renderRecList rs ++ ([] : List Char) = renderRecList rs from by simp] at hval
  rw [parseExpr_ws (by decide), hval]
  show parseStmts (ambAssign ++ renderRecList rs).length []
    (nsInsert [] ambiguousFieldsName (PyVal.list (rs.map recVal))) = _
  rw [parseStmts_end_nil ?_]
  · rfl
  · rw [List.length_append]
    have h19 : ambAssign.length = 19 := rfl
    omega

theorem renderRec_length (r : AmbRec) :
    r.candidates.length + 12 ≤ (renderRec r).length := by
  have h := renderItemsStr_length r.candidates
  have h15 : ocKey.length = 15 := rfl
  have h10 : candKey.length = 10 := rfl
  have h6 : reasonKey.length = 6 := rfl
  have h13 : svKey.length = 13 := rfl
  simp only [renderRec, renderStrLit, renderListOfStr, List.length_cons,
    List.length_append, List.length_singleton]
  omega

theorem recList_fuel_bound (rs : List AmbRec) :
    2 * rs.length + recsBound rs + 1 ≤ (' ' :: renderRecList rs).length + 1 := by
  have hmain : ∀ t : List AmbRec, 2 * t.length + recsBound t ≤
      (renderRecItems t).length + 3 := by
    intro t
    induction t with
    | nil => simp [recsBound, renderRecItems]
    | cons r u ih =>
      have hr := renderRec_length r
      rw [recsBound, List.foldr_cons]
      cases u with
      | nil =>
        simp only [renderRecItems, List.length_cons, List.length_nil, List.foldr_nil]
        have hmax : max (r.candidates.length + 12) 1 = r.candidates.length + 12 := by omega
        rw [hmax]
        omega
      | cons q w =>
        rw [show recsBound (q :: w) = (q :: w).foldr
          (fun r n => max (r.candidates.length + 12) n) 1 from rfl] at ih
        simp only [renderRecItems, List.length_append, List.length_cons] at ih ⊢
        have hmax : max (r.candidates.length + 12)
            ((q :: w).foldr (fun r n => max (r.candidates.length + 12) n) 1) ≤
            (r.candidates.length + 12) +
            ((q :: w).foldr (fun r n => max (r.candidates.length + 12) n) 1) := by
          omega
        omega
  have := hmain rs
  simp only [renderRecList, List.length_cons, List.length_append, List.length_singleton]
  omega

/-! Character-set facts about the renderers, needed to locate the fences
and the rename marker inside a well-formed response. -/


theorem safeStr_all_noEqBq {s : List Char} (hs : safeStr s = true) :
    s.all noEqBq = true := by
  rw [List.all_eq_true]
  intro c hc
  have h := (List.all_eq_true.mp hs) c hc
  simp only [safeChar] at h
  have h2 := by simpa using h
  simp [noEqBq, h2.1.2, h2.2]

theorem renderStrLit_noEqBq {s : List Char} (hs : safeStr s = true) :
    (renderStrLit s).all noEqBq = true := by
  rw [renderStrLit]
  simp only [List.all_cons, List.all_append, safeStr_all_noEqBq hs]
  decide

theorem renderPairsStr_noEqBq {m : List (List Char × List Char)}
    (hs : m.all (fun p => safeStr p.1 && safeStr p.2) = true) :
    (renderPairsStr m).all noEqBq = true := by
  induction m with
  | nil => rfl
  | cons p t ih =>
    rw [List.all_cons, Bool.and_eq_true] at hs
    obtain ⟨hp, ht⟩ := hs
    rw [Bool.and_eq_true] at hp
    cases t with
    | nil =>
      rw [renderPairsStr]
      simp only [List.all_cons, List.all_append, renderStrLit_noEqBq hp.1,
        renderStrLit_noEqBq hp.2]
      decide
    | cons q u =>
      rw [renderPairsStr]
      simp only [List.all_cons, List.all_append, renderStrLit_noEqBq hp.1,
        renderStrLit_noEqBq hp.2, ih ht]
      decide

theorem renderDictStr_noEqBq {m : List (List Char × List Char)}
    (hs : m.all (fun p => safeStr p.1 && safeStr p.2) = true) :
    (renderDictStr m).all noEqBq = true := by
  rw [renderDictStr]
  simp only [List.all_cons, List.all_append, renderPairsStr_noEqBq hs]
  decide

theorem renderItemsStr_noEqBq {l : List (List Char)} (hs : l.all safeStr = true) :
    (renderItemsStr l).all noEqBq = true := by
  induction l with
  | nil => rfl
  | cons s t ih =>
    rw [List.all_cons, Bool.and_eq_true] at hs
    obtain ⟨h1, h2⟩ := hs
    cases t with
    | nil => exact renderStrLit_noEqBq h1
    | cons q u =>
      rw [renderItemsStr]
      simp only [List.all_cons, List.all_append, renderStrLit_noEqBq h1, ih h2]
      decide

theorem renderListOfStr_noEqBq {l : List (List Char)} (hs : l.all safeStr = true) :
    (renderListOfStr l).all noEqBq = true := by
  rw [renderListOfStr]
  simp only [List.all_cons, List.all_append, renderItemsStr_noEqBq hs]
  decide

theorem renderRec_noEqBq {r : AmbRec} (hs : safeRec r = true) :
    (renderRec r).all noEqBq = true := by
  obtain ⟨h1, h2, h3, h4⟩ := safeRec_parts hs
  rw [renderRec]
  simp only [List.all_cons, List.all_append,
    renderStrLit_noEqBq h1, renderStrLit_noEqBq h3, renderStrLit_noEqBq h4,
    renderListOfStr_noEqBq h2,
    renderStrLit_noEqBq (show safeStr ocKey = true by decide),
    renderStrLit_noEqBq (show safeStr candKey = true by decide),
    renderStrLit_noEqBq (show safeStr reasonKey = true by decide),
    renderStrLit_noEqBq (show safeStr svKey = true by decide)]
  decide

theorem renderRecItems_noEqBq {rs : List AmbRec} (hs : rs.all safeRec = true) :
    (renderRecItems rs).all noEqBq = true := by
  induction rs with
  | nil => rfl
  | cons r t ih =>
    rw [List.all_cons, Bool.and_eq_true] at hs
    obtain ⟨h1, h2⟩ := hs
    cases t with
    | nil => exact renderRec_noEqBq h1
    | cons q u =>
      rw [renderRecItems]
      simp only [List.all_cons, List.all_append, renderRec_noEqBq h1, ih h2]
      decide

theorem renderRecList_noEqBq {rs : List AmbRec} (hs : rs.all safeRec = true) :
    (renderRecList rs).all noEqBq = true := by
  rw [renderRecList]
  simp only [List.all_cons, List.all_append, renderRecItems_noEqBq hs]
  decide

theorem marker_no_match {d z : List Char} (hd : ∀ c ∈ d, ¬ c = '=') :
    ∀ i, i < (renameAssign ++ (d ++ ['\n'])).length →
      matchesAt renameMarker
        (((renameAssign ++ (d ++ ['\n'])) ++ (renameMarker ++ z)).drop i) = false := by
  intro i hi
  by_contra hcon
  have h : matchesAt renameMarker
      (((renameAssign ++ (d ++ ['\n'])) ++ (renameMarker ++ z)).drop i) = true := by
    simpa using hcon
  have hra : renameAssign.length = 13 := rfl
  have hxlen : (renameAssign ++ (d ++ ['\n'])).length = 13 + (d.length + 1) := by
    simp [List.length_append, hra]
  have h0 : ((renameAssign ++ (d ++ ['\n'])) ++ (renameMarker ++ z))[i]? = some 'd' := by
    have hg := matchesAt_getElem h (j := 0) (by decide)
    rw [List.getElem?_drop] at hg
    rw [show renameMarker[0]? = some 'd' from rfl] at hg
    simpa using hg
  have h3 : ((renameAssign ++ (d ++ ['\n'])) ++ (renameMarker ++ z))[i + 3]? = some '=' := by
    have hg := matchesAt_getElem h (j := 3) (by decide)
    rw [List.getElem?_drop] at hg
    rw [show renameMarker[3]? = some '=' from rfl] at hg
    exact hg
  by_cases hc : i + 3 < (renameAssign ++ (d ++ ['\n'])).length
  · have hx3 : (renameAssign ++ (d ++ ['\n']))[i + 3]? = some '=' := by
      rw [List.getElem?_append, if_pos hc] at h3
      exact h3
    by_cases h13 : i + 3 < 13
    · have hr3 : renameAssign[i + 3]? = some '=' := by
        rw [List.getElem?_append, if_pos (by omega)] at hx3
        exact hx3
      have h11 : i + 3 = 11 := by
        have : ∀ j, j < 13 → renameAssign[j]? = some '=' → j = 11 := by decide
        exact this (i + 3) h13 hr3
      have hi8 : i = 8 := by omega
      subst hi8
      have hw8 : ((renameAssign ++ (d ++ ['\n'])) ++ (renameMarker ++ z))[8]? = some 'a' := by
        rw [List.getElem?_append, if_pos (by omega)]
        rw [List.getElem?_append, if_pos (by omega)]
        rfl
      rw [hw8] at h0
      simp at h0
    · have hd3 : (d ++ ['\n'])[i + 3 - 13]? = some '=' := by
        rw [List.getElem?_append, if_pos hc] at h3
        rw [List.getElem?_append, if_neg (by omega)] at h3
        rw [hra] at h3
        exact h3
      have hmem : '=' ∈ d ++ ['\n'] := List.getElem?_mem hd3
      rw [List.mem_append] at hmem
      rcases hmem with hm | hm
      · exact hd '=' hm rfl
      · simp at hm
  · have hk3 : i + 3 - (renameAssign ++ (d ++ ['\n'])).length < 3 := by omega
    have hm3 : (renameMarker ++ z)[i + 3 - (renameAssign ++ (d ++ ['\n'])).length]?
        = some '=' := by
      rw [List.getElem?_append_right (by omega)] at h3
      exact h3
    have hmk : renameMarker[i + 3 - (renameAssign ++ (d ++ ['\n'])).length]? = some '=' := by
      rw [List.getElem?_append, if_pos (by have : renameMarker.length = 14 := rfl ; omega)]
        at hm3
      exact hm3
    have : ∀ k, k < 3 → ¬ (renameMarker[k]? = some '=') := by decide
    exact this _ hk3 hmk

theorem pyStrip_wrapped {X : List Char}
    (h1 : ∃ c t, X = c :: t ∧ isPySpace c = false)
    (h2 : ∃ e t2, X.reverse = e :: t2 ∧ isPySpace e = false) :
    pyStrip ('\n' :: (X ++ ['\n'])) = X := by
  obtain ⟨c, t, hx, hc⟩ := h1
  obtain ⟨e, t2, hrev, he⟩ := h2
  rw [pyStrip, skipWs_cons_pos (by decide)]
  rw [hx, List.cons_append, skipWs_cons_neg hc, ← List.cons_append, ← hx]
  rw [dropWsEnd]
  have hra : (X ++ ['\n']).reverse = '\n' :: X.reverse := by simp
  rw [hra, skipWs_cons_pos (by decide), hrev, skipWs_cons_neg he, ← hrev,
    List.reverse_reverse]

theorem wfBlock1_head (m : List (List Char × List Char)) :
    ∃ c t, wfBlock1 m = c :: t ∧ isPySpace c = false :=
  ⟨'r', _, rfl, by decide⟩

theorem wfBlock1_last (m : List (List Char × List Char)) :
    ∃ e t2, (wfBlock1 m).reverse = e :: t2 ∧ isPySpace e = false := by
  have hs : (wfBlock1 m).reverse =
      renameCall.reverse ++ (renameAssign ++ renderDictStr m).reverse :=
    List.reverse_append _ _
  have hrc : renameCall.reverse = ')' :: (renameCall.reverse).tail := rfl
  refine ⟨')', (renameCall.reverse).tail ++ (renameAssign ++ renderDictStr m).reverse,
    ?_, by decide⟩
  rw [hs, hrc, List.cons_append]
  rfl

theorem wfBlock2_head (rs : List AmbRec) :
    ∃ c t, wfBlock2 rs = c :: t ∧ isPySpace c = false :=
  ⟨'a', _, rfl, by decide⟩

theorem wfBlock2_last (rs : List AmbRec) :
    ∃ e t2, (wfBlock2 rs).reverse = e :: t2 ∧ isPySpace e = false := by
  have hs : (wfBlock2 rs).reverse = (renderRecList rs).reverse ++ ambAssign.reverse :=
    List.reverse_append _ _
  have hrl : (renderRecList rs).reverse = ']' :: ((renderRecItems rs).reverse ++ ['[']) := by
    rw [renderRecList, List.reverse_cons, List.reverse_append]
    rfl
  refine ⟨']', (renderRecItems rs).reverse ++ (['['] ++ ambAssign.reverse), ?_, by decide⟩
  rw [hs, hrl, List.cons_append, List.append_assoc]

theorem all_noEqBq_no_bq {l : List Char} (h : l.all noEqBq = true) :
    ∀ c ∈ l, ¬ c = Char.ofNat 96 := by
  intro c hc hcc
  have := (List.all_eq_true.mp h) c hc
  subst hcc
  simp [noEqBq] at this

theorem all_noEqBq_no_eq {l : List Char} (h : l.all noEqBq = true) :
    ∀ c ∈ l, ¬ c = '=' := by
  intro c hc
  have := (List.all_eq_true.mp h) c hc
  intro hcc
  subst hcc
  simp [noEqBq] at this

theorem wfBlock1_no_bq {m : List (List Char × List Char)}
    (hm : m.all (fun p => safeStr p.1 && safeStr p.2) = true) :
    ∀ c ∈ wfBlock1 m, ¬ c = Char.ofNat 96 := by
  intro c hc
  rw [wfBlock1] at hc
  simp only [List.mem_append] at hc
  rcases hc with (h | h) | h
  · revert c
    decide
  · exact all_noEqBq_no_bq (renderDictStr_noEqBq hm) c h
  · revert c
    decide

theorem wfBlock2_no_bq {rs : List AmbRec} (hrs : rs.all safeRec = true) :
    ∀ c ∈ wfBlock2 rs, ¬ c = Char.ofNat 96 := by
  intro c hc
  rw [wfBlock2] at hc
  simp only [List.mem_append] at hc
  rcases hc with h | h
  · revert c
    decide
  · exact all_noEqBq_no_bq (renderRecList_noEqBq hrs) c h

theorem region_no_bq {B : List Char} (hB : ∀ c ∈ B, ¬ c = Char.ofNat 96) :
    ∀ c ∈ pythonTag ++ ('\n' :: (B ++ ['\n'])), ¬ c = Char.ofNat 96 := by
  intro c hc
  simp only [List.mem_append, List.mem_cons, List.mem_singleton] at hc
  rcases hc with h | h | h | (h | h)
  · exact pythonTag_no_bq c h
  · subst h
    decide
  · exact hB c h
  · subst h
    decide
  · simp at h

theorem splitAtSeq_fence_sandwich {x rest : List Char}
    (hx : ∀ c ∈ x, ¬ c = Char.ofNat 96) :
    splitAtSeq fence (x ++ fence ++ rest) = some (x, rest) := by
  apply splitAtSeq_sandwich fence_ne_nil
  have hno := @no_match_of_head_notin (Char.ofNat 96)
    (Char.ofNat 96 :: [Char.ofNat 96]) x (fence ++ rest) hx
  rw [← fence_cons] at hno
  exact hno

theorem codeBlocks_wf (m : List (List Char × List Char)) (rs : List AmbRec)
    (hm : m.all (fun p => safeStr p.1 && safeStr p.2) = true)
    (hrs : rs.all safeRec = true) :
    codeBlocksOf (wfResponse m rs) = [wfBlock1 m, wfBlock2 rs] := by
  have hshape : wfResponse m rs = fence ++
      (((pythonTag ++ ('\n' :: (wfBlock1 m ++ ['\n']))) ++ fence) ++
        (((['\n', '\n'] : List Char) ++ fence) ++
          (((pythonTag ++ ('\n' :: (wfBlock2 rs ++ ['\n']))) ++ fence) ++
            ([] : List Char)))) := by
    rw [wfResponse]
    simp only [List.append_assoc, List.cons_append, List.singleton_append, List.append_nil,
      List.nil_append]
  have h1 : splitAtSeq fence (wfResponse m rs) =
      some ([], ((pythonTag ++ ('\n' :: (wfBlock1 m ++ ['\n']))) ++ fence) ++
        (((['\n', '\n'] : List Char) ++ fence) ++
          (((pythonTag ++ ('\n' :: (wfBlock2 rs ++ ['\n']))) ++ fence) ++
            ([] : List Char)))) := by
    rw [hshape]
    exact splitAtSeq_self fence _ fence_ne_nil
  have h2 : splitAtSeq fence (((pythonTag ++ ('\n' :: (wfBlock1 m ++ ['\n']))) ++ fence) ++
      (((['\n', '\n'] : List Char) ++ fence) ++
        (((pythonTag ++ ('\n' :: (wfBlock2 rs ++ ['\n']))) ++ fence) ++
          ([] : List Char)))) =
      some (pythonTag ++ ('\n' :: (wfBlock1 m ++ ['\n'])),
        ((['\n', '\n'] : List Char) ++ fence) ++
          (((pythonTag ++ ('\n' :: (wfBlock2 rs ++ ['\n']))) ++ fence) ++
            ([] : List Char))) :=
    splitAtSeq_fence_sandwich (region_no_bq (wfBlock1_no_bq hm))
  have h3 : splitAtSeq fence (((['\n', '\n'] : List Char) ++ fence) ++
      (((pythonTag ++ ('\n' :: (wfBlock2 rs ++ ['\n']))) ++ fence) ++ ([] : List Char))) =
      some ((['\n', '\n'] : List Char),
        ((pythonTag ++ ('\n' :: (wfBlock2 rs ++ ['\n']))) ++ fence) ++ ([] : List Char)) :=
    splitAtSeq_fence_sandwich (by decide)
  have h4 : splitAtSeq fence (((pythonTag ++ ('\n' :: (wfBlock2 rs ++ ['\n']))) ++ fence) ++
      ([] : List Char)) =
      some (pythonTag ++ ('\n' :: (wfBlock2 rs ++ ['\n'])), ([] : List Char)) :=
    splitAtSeq_fence_sandwich (region_no_bq (wfBlock2_no_bq hrs))
  have h5 : splitAtSeq fence ([] : List Char) = none := rfl
  have hne1 : (wfBlock1 m).isEmpty = false := by
    obtain ⟨c, t, he, hc⟩ := wfBlock1_head m
    rw [he]
    rfl
  have hne2 : (wfBlock2 rs).isEmpty = false := by
    obtain ⟨c, t, he, hc⟩ := wfBlock2_head rs
    rw [he]
    rfl
  rw [codeBlocksOf, findBlocks_spec, specFencedBlocks]
  rw [splitOnFence_some h1, splitOnFence_some h2, splitOnFence_some h3,
    splitOnFence_some h4, splitOnFence_none h5]
  rw [show fencedRaw ([] :: (pythonTag ++ ('\n' :: (wfBlock1 m ++ ['\n']))) ::
      (['\n', '\n'] : List Char) :: (pythonTag ++ ('\n' :: (wfBlock2 rs ++ ['\n']))) :: [[]]) =
    [pythonTag ++ ('\n' :: (wfBlock1 m ++ ['\n'])),
     pythonTag ++ ('\n' :: (wfBlock2 rs ++ ['\n']))] from rfl]
  simp only [List.map_cons, List.map_nil]
  rw [stripPyTag_of_python, stripPyTag_of_python]
  rw [pyStrip_wrapped (wfBlock1_head m) (wfBlock1_last m),
    pyStrip_wrapped (wfBlock2_head rs) (wfBlock2_last rs)]
  simp [List.filter, hne1, hne2]

theorem auditAmb_recVals (rs : List AmbRec) :
    auditAmb (PyVal.list (rs.map recVal)) = some () := by
  cases rs with
  | nil => rfl
  | cons r t =>
    rw [auditAmb, if_pos (by rfl)]
    show (if ((r :: t).map recVal).all (fun fld => fld.isDict) = true then some () else none)
      = some ()
    rw [if_pos]
    rw [list_all_map]
    rw [List.all_eq_true]
    intro q hq
    rfl

theorem auditMap_strs (mm : List (List Char × List Char)) :
    auditMap (PyVal.dict (mm.map (fun p => (PyVal.str p.1, PyVal.str p.2)))) =
      some (((mm.filter (fun p => matchesAt unknownTag p.2)).map (fun p => PyVal.str p.1)),
        (mm.filter
          (fun p => !(matchesAt ambiguousTag p.2 || matchesAt unknownTag p.2))).length) := by
  rw [auditMap]
  rw [if_pos ?_]
  · congr 1
    congr 1
    · rw [List.filter_map, List.map_map]
      rfl
    · rw [List.filter_map]
      simp
      rfl
  · rw [list_all_map]
    rw [List.all_eq_true]
    intro q hq
    rfl

theorem wfBlock1_split {m : List (List Char × List Char)}
    (hm : m.all (fun p => safeStr p.1 && safeStr p.2) = true) :
    splitAtSeq renameMarker (wfBlock1 m) =
      some (renameAssign ++ (renderDictStr m ++ ['\n']),
        ("(columns=rename_map)").toList) := by
  have hcall : renameCall =
      '\n' :: (renameMarker ++ ("(columns=rename_map)").toList) := by decide
  have hshape : wfBlock1 m =
      ((renameAssign ++ (renderDictStr m ++ ['\n'])) ++ renameMarker) ++
        ("(columns=rename_map)").toList := by
    rw [wfBlock1, hcall]
    simp only [List.append_assoc, List.cons_append, List.singleton_append,
      List.nil_append]
  rw [hshape]
  exact splitAtSeq_sandwich (by decide)
    (marker_no_match (all_noEqBq_no_eq (renderDictStr_noEqBq hm)))

theorem mapCode_wf {m : List (List Char × List Char)} (rs : List AmbRec)
    (hm : m.all (fun p => safeStr p.1 && safeStr p.2) = true)
    (hrs : rs.all safeRec = true) :
    mapCodeOf (wfResponse m rs) = renameAssign ++ (renderDictStr m ++ ['\n']) := by
  have hrc : renameCodeOf (wfResponse m rs) = wfBlock1 m := by
    rw [renameCodeOf, codeBlocks_wf m rs hm hrs]
    rfl
  rw [mapCodeOf, hrc, mapCodeFrom, wfBlock1_split hm]

theorem columnMap_wf {m : List (List Char × List Char)} (rs : List AmbRec)
    (hm : m.all (fun p => safeStr p.1 && safeStr p.2) = true)
    (hn : (m.map (fun p => p.1)).Nodup)
    (hrs : rs.all safeRec = true) :
    columnMapOf (wfResponse m rs) =
      PyVal.dict (m.map (fun p => (PyVal.str p.1, PyVal.str p.2))) := by
  have hrc : renameCodeOf (wfResponse m rs) = wfBlock1 m := by
    rw [renameCodeOf, codeBlocks_wf m rs hm hrs]
    rfl
  have hne1 : (wfBlock1 m).isEmpty = false := by
    obtain ⟨c, t, he, hc⟩ := wfBlock1_head m
    rw [he]
    rfl
  show (if (renameCodeOf (wfResponse m rs)).isEmpty then PyVal.dict []
    else match pyExec (mapCodeOf (wfResponse m rs)) with
      | some ns => nsGet ns renameMapName (PyVal.dict [])
      | none => PyVal.dict []) = _
  rw [hrc, mapCode_wf rs hm hrs, if_neg (by rw [hne1] ; exact Bool.false_ne_true),
    pyExec_mapAssign m hm hn]
  rfl

theorem ambFields_wf {m : List (List Char × List Char)} (rs : List AmbRec)
    (hm : m.all (fun p => safeStr p.1 && safeStr p.2) = true)
    (hrs : rs.all safeRec = true) :
    ambiguousFieldsOf (wfResponse m rs) = PyVal.list (rs.map recVal) := by
  have hac : ambiguousCodeOf (wfResponse m rs) = wfBlock2 rs := by
    rw [ambiguousCodeOf, codeBlocks_wf m rs hm hrs]
    rfl
  have hne2 : (wfBlock2 rs).isEmpty = false := by
    obtain ⟨c, t, he, hc⟩ := wfBlock2_head rs
    rw [he]
    rfl
  show (if (ambiguousCodeOf (wfResponse m rs)).isEmpty then PyVal.list []
    else match pyExec (ambiguousCodeOf (wfResponse m rs)) with
      | some ns => nsGet ns ambiguousFieldsName (PyVal.list [])
      | none => PyVal.list []) = _
  rw [hac, if_neg (by rw [hne2] ; exact Bool.false_ne_true),
    show wfBlock2 rs = ambAssign ++ renderRecList rs from rfl,
    pyExec_ambAssign rs hrs (recList_fuel_bound rs)]
  rfl

/-- Claim C4: for every well-formed two-block model response matching the
literal output contract (block 1 a string-to-string rename_map literal over
pairwise-distinct raw column names followed by the dataframe-rename
invocation, block 2 an ambiguous_fields list of four-key records), the
stage returns normally with the first block as cleaning code, the record
list as ambiguous fields and the mapping literal as column map; the
extracted column_map keys equal exactly the raw column list with no
additions or omissions, and every extracted ambiguous_fields entry
carries all four required keys. -/
theorem c4_wellformed_roundtrip (m : List (List Char × List Char)) (rs : List AmbRec)
    (hm : m.all (fun p => safeStr p.1 && safeStr p.2) = true)
    (hn : (m.map (fun p => p.1)).Nodup)
    (hrs : rs.all safeRec = true) :
    field_standardization_agent (wfResponse m rs) =
      some ⟨wfBlock1 m, PyVal.list (rs.map recVal),
        PyVal.dict (m.map (fun p => (PyVal.str p.1, PyVal.str p.2)))⟩ ∧
    dictKeys (columnMapOf (wfResponse m rs)) = m.map (fun p => PyVal.str p.1) ∧
    ∀ v ∈ listElems (ambiguousFieldsOf (wfResponse m rs)), hasReqKeys v = true := by
  have hcb := codeBlocks_wf m rs hm hrs
  have hrc : renameCodeOf (wfResponse m rs) = wfBlock1 m := by
    rw [renameCodeOf, hcb]
    rfl
  have hcm := columnMap_wf rs hm hn hrs
  have haf := ambFields_wf rs hm hrs
  have hrep : reporting (ambiguousFieldsOf (wfResponse m rs))
      (columnMapOf (wfResponse m rs)) =
        some (((m.filter (fun p => matchesAt unknownTag p.2)).map
            (fun p => PyVal.str p.1)),
          (m.filter
            (fun p => !(matchesAt ambiguousTag p.2 || matchesAt unknownTag p.2))).length) := by
    rw [haf, hcm, reporting, auditAmb_recVals]
    exact auditMap_strs m
  have hstage := stage_of_reporting_some (by rw [hcb] ; exact List.cons_ne_nil _ _) hrep
  rw [hrc, haf, hcm] at hstage
  refine ⟨hstage, ?_, ?_⟩
  · rw [hcm, show dictKeys (PyVal.dict (m.map (fun p => (PyVal.str p.1, PyVal.str p.2)))) =
      (m.map (fun p => (PyVal.str p.1, PyVal.str p.2))).map (fun p => p.1) from rfl,
      List.map_map]
    rfl
  · rw [haf]
    intro v hv
    rw [show listElems (PyVal.list (rs.map recVal)) = rs.map recVal from rfl] at hv
    obtain ⟨r, hr, hre⟩ := List.mem_map.mp hv
    rw [← hre, hasReqKeys,
      show dictKeys (recVal r) = [PyVal.str ocKey, PyVal.str candKey,
        PyVal.str reasonKey, PyVal.str svKey] from rfl]
    decide

theorem c4_witness :
    (([(("a").toList, ("B").toList)] : List (List Char × List Char)).all
        (fun p => safeStr p.1 && safeStr p.2) = true) ∧
    ((([(("a").toList, ("B").toList)] : List (List Char × List Char)).map
        (fun p => p.1)).Nodup) ∧
    (([⟨("c").toList, [("D").toList], ("e").toList, ("f").toList⟩] :
        List AmbRec).all safeRec = true) ∧
    (field_standardization_agent (wfResponse [(("a").toList, ("B").toList)]
          [⟨("c").toList, [("D").toList], ("e").toList, ("f").toList⟩]) =
        some ⟨wfBlock1 [(("a").toList, ("B").toList)],
          PyVal.list (([⟨("c").toList, [("D").toList], ("e").toList, ("f").toList⟩] :
            List AmbRec).map recVal),
          PyVal.dict (([(("a").toList, ("B").toList)] :
            List (List Char × List Char)).map
              (fun p => (PyVal.str p.1, PyVal.str p.2)))⟩ ∧
      dictKeys (columnMapOf (wfResponse [(("a").toList, ("B").toList)]
          [⟨("c").toList, [("D").toList], ("e").toList, ("f").toList⟩])) =
        ([(("a").toList, ("B").toList)] : List (List Char × List Char)).map
          (fun p => PyVal.str p.1) ∧
      ∀ v ∈ listElems (ambiguousFieldsOf (wfResponse [(("a").toList, ("B").toList)]
          [⟨("c").toList, [("D").toList], ("e").toList, ("f").toList⟩])),
        hasReqKeys v = true) :=
  ⟨by decide, by decide, by decide,
    c4_wellformed_roundtrip [(("a").toList, ("B").toList)]
      [⟨("c").toList, [("D").toList], ("e").toList, ("f").toList⟩]
      (by decide) (by decide) (by decide)⟩

/-- Claim C5: the audit rename mapping comes from evaluating only the
substring of the rename code that precedes the first dataframe-rename
invocation: splitting at the marker isolates exactly the text before its
first occurrence; when that isolated substring fails to evaluate, the
audit mapping degrades to the empty mapping; and the failure never
propagates: provided the ambiguous-field report succeeds, the stage still
returns normally, carrying the empty mapping as its column map. -/
theorem c5_mapcode_isolation_and_degradation :
    (∀ x z : List Char,
      (∀ i, i < x.length →
        matchesAt renameMarker ((x ++ (renameMarker ++ z)).drop i) = false) →
      mapCodeFrom ((x ++ renameMarker) ++ z) = x) ∧
    (∀ resp : List Char, pyExec (mapCodeOf resp) = none →
      columnMapOf resp = PyVal.dict []) ∧
    (∀ resp : List Char, codeBlocksOf resp ≠ [] →
      pyExec (mapCodeOf resp) = none →
      auditAmb (ambiguousFieldsOf resp) = some () →
      field_standardization_agent resp =
        some ⟨renameCodeOf resp, ambiguousFieldsOf resp, PyVal.dict []⟩) := by
  have h2 : ∀ resp : List Char, pyExec (mapCodeOf resp) = none →
      columnMapOf resp = PyVal.dict [] := by
    intro resp hfail
    show (if (renameCodeOf resp).isEmpty then PyVal.dict []
      else match pyExec (mapCodeOf resp) with
        | some ns => nsGet ns renameMapName (PyVal.dict [])
        | none => PyVal.dict []) = _
    by_cases he : (renameCodeOf resp).isEmpty
    · rw [if_pos he]
    · rw [if_neg he, hfail]
  refine ⟨?_, h2, ?_⟩
  · intro x z h
    rw [mapCodeFrom, splitAtSeq_sandwich (by decide) h]
  · intro resp hb hfail hamb
    have hcm := h2 resp hfail
    have hrep : reporting (ambiguousFieldsOf resp) (columnMapOf resp) =
        some ([], 0) := by
      rw [reporting, hamb, hcm]
      rfl
    have hstage := stage_of_reporting_some hb hrep
    rw [hcm] at hstage
    exact hstage

theorem c5_witness :
    codeBlocksOf (("```python\noops(\ndf = df.rename(columns=rename_map)\n```").toList) ≠
      [] ∧
    pyExec (mapCodeOf
      (("```python\noops(\ndf = df.rename(columns=rename_map)\n```").toList)) = none ∧
    auditAmb (ambiguousFieldsOf
      (("```python\noops(\ndf = df.rename(columns=rename_map)\n```").toList)) = some () ∧
    field_standardization_agent
        (("```python\noops(\ndf = df.rename(columns=rename_map)\n```").toList) =
      some ⟨renameCodeOf
          (("```python\noops(\ndf = df.rename(columns=rename_map)\n```").toList),
        ambiguousFieldsOf
          (("```python\noops(\ndf = df.rename(columns=rename_map)\n```").toList),
        PyVal.dict []⟩ :=
  ⟨by decide, by rfl, by rfl,
    c5_mapcode_isolation_and_degradation.2.2
      (("```python\noops(\ndf = df.rename(columns=rename_map)\n```").toList)
      (by decide) (by rfl) (by rfl)⟩
